import Mathlib

/-!
# Softbit codecs of the STL error-insertion device (`src/eid/softbit.c`)

A shallow embedding of the routines of `softbit.c` (the 16-bit, byte and
compact-bit codecs, the format detector, the soft-to-hard translator and the
label helpers), followed by theorems about them.

Conventions of the embedding.

* A pattern buffer (`short *patt`) is a function `Nat → Int` giving the
  `short` held at each index; a store `*p++ = v` is `Function.update`.
  Indices at and beyond the count `n` are the memory that follows the first
  `n` elements of the caller's buffer.
* A byte (`char` of a scratch buffer, a byte of a file) is the natural number
  `0..255` of its bit pattern; values are reduced `% 256` where the C code
  stores into a `char`.
* The result of a `stdio` call is an input of the model: what `fread`
  delivered together with the stream's error indicator, or the count that
  `fwrite` reported.
* `ceil (n / 8.0)` is `(n + 7) / 8` (exact for every count below `2 ^ 53`).
* Counts `n` are natural numbers, the scratch buffers are taken to be
  allocated (`calloc` does not fail), and the messages written to `stderr`
  are left out.
-/

namespace Softbit

set_option autoImplicit false

/-! ## The header `softbit.h` -/

/-- Modelled from the spec: the macro `G192_ZERO` of `softbit.h` (the header is
not part of the sources), softbit '0', no bit error. -/
def G192_ZERO : Int := 0x007F

/-- Modelled from the spec: the macro `G192_ONE` of `softbit.h`, softbit '1',
bit error. -/
def G192_ONE : Int := 0x0081

/-- Modelled from the spec: the macro `G192_SYNC` of `softbit.h`, good frame. -/
def G192_SYNC : Int := 0x6B21

/-- Modelled from the spec: the macro `G192_FER` of `softbit.h`, erased
frame. -/
def G192_FER : Int := 0x6B20

/-- Modelled from the spec: the enumerators of `softbit.h` that `softbit.c`
switches on, taken as parameters since the header is not part of the sources.
`byte`, `g192`, `compact` are the format codes, `BER`, `FER` the disturbance
classes and `nil` the code for "class not known". The labels of one `switch`
are distinct in any program that compiles: `BER ≠ FER` (`read_bit`,
`type_str`, `soft2hard`) and the three format codes (`format_str`). All are
small enumerators, which a `char` holds unchanged. -/
structure SoftbitH where
  byte : Int
  g192 : Int
  compact : Int
  nil : Int
  BER : Int
  FER : Int
  BER_ne_FER : BER ≠ FER
  byte_ne_g192 : byte ≠ g192
  byte_ne_compact : byte ≠ compact
  g192_ne_compact : g192 ≠ compact

/-- A sample header, used to evaluate the routines on concrete inputs:
`{byte, g192, compact, nil}` numbered from 0 and `{BER, FER}` numbered from 0. -/
def sampleH : SoftbitH :=
  ⟨0, 1, 2, 3, 0, 1, by decide, by decide, by decide, by decide⟩

/-! ## Results of the `stdio` calls -/

/-- What one `fread` call did: the items it stored into the buffer, in order,
and the value of `ferror (F)` after the call. -/
structure Fread (α : Type) where
  items : List α
  error : Bool

/-- Number of bytes of the compact bitstream for `n` softbits:
`(long) (ceil (n / 8.0))`. -/
def nbytes_of (n : Nat) : Nat := (n + 7) / 8

/-! ## `save_bit` -/

/-- Inner loop of `save_bit`:
`for (k = 1; k < 8 && i < n; k++, i++) tmp += (unsigned char) (((*p++) == one ? 1 : 0) << k);`
The state is `(p, i, tmp)`, with `p` the index `p - patt`; `tmp` is a `char`.
The first argument bounds the number of iterations; the loop is entered with
`k = 1` and bound 7, so that the bound is reached only when `k = 8`. -/
def save_bit_inner (patt : Nat → Int) (one : Int) (n : Nat) :
    Nat → Nat → Nat → Nat → Nat → Nat × Nat × Nat
  | 0, _, p, i, tmp => (p, i, tmp)
  | fuel + 1, k, p, i, tmp =>
    if k < 8 ∧ i < n then
      save_bit_inner patt one n fuel (k + 1) (p + 1) (i + 1)
        ((tmp + ((if patt p = one then 1 else 0) <<< k) % 256) % 256)
    else (p, i, tmp)

/-- Outer loop of `save_bit`: `for (i = j = 0; j < nbytes; j++) { ... bits[j] = tmp; }`.
The first argument is the number `nbytes - j` of bytes still to produce; the
result lists `bits[j], bits[j+1], ...`. -/
def save_bit_outer (patt : Nat → Int) (one : Int) (n : Nat) :
    Nat → Nat → Nat → List Nat
  | 0, _, _ => []
  | r + 1, p, i =>
    let tmp : Nat := if patt p = one then 1 else 0
    let s := save_bit_inner patt one n 7 1 (p + 1) i tmp
    s.2.2 :: save_bit_outer patt one n r s.1 s.2.1

/-- The `switch (*p)` of `save_bit` that chooses `one`; `one0` is the
indeterminate value the uninitialised variable holds when the first softbit is
none of the four sentinels. -/
def save_bit_one (one0 : Int) (first : Int) : Int :=
  if first = G192_ZERO ∨ first = G192_ONE then G192_ONE
  else if first = G192_SYNC ∨ first = G192_FER then G192_FER
  else one0

/-- The function `save_bit (patt, n, F)`. `w` is the count the `fwrite` call
reports. The result is the returned `long` and the `nbytes` bytes of `bits`
handed to `fwrite`. -/
def save_bit (one0 : Int) (patt : Nat → Int) (n : Nat) (w : Nat) : Int × List Nat :=
  if n = 0 then (0, [])
  else
    let nbytes := nbytes_of n
    let one := save_bit_one one0 (patt 0)
    let bits := save_bit_outer patt one n nbytes 0 0
    let i : Int := w
    (if (n : Int) < i then -1 else n, bits)

/-! ## `read_bit` -/

/-- Inner loop of `read_bit`:
`for (k = 1; k < 8 && bitno < n; k++, bitno++) *p++ = (bits[j] >> k) & 0x0001;`
with `b = bits[j]`. The state is `(p, bitno, patt)`. The first argument bounds
the number of iterations (7 on entry with `k = 1`). -/
def read_bit_inner (b : Nat) (n : Nat) :
    Nat → Nat → Nat → Nat → (Nat → Int) → Nat × Nat × (Nat → Int)
  | 0, _, p, bitno, patt => (p, bitno, patt)
  | fuel + 1, k, p, bitno, patt =>
    if k < 8 ∧ bitno < n then
      read_bit_inner b n fuel (k + 1) (p + 1) (bitno + 1)
        (Function.update patt p (((b >>> k) &&& 0x0001 : Nat) : Int))
    else (p, bitno, patt)

/-- Outer loop of `read_bit`, `for (p = patt, bitno = j = 0; j < rbytes; j++)`,
over the bytes `bits[j], bits[j+1], ...` that were read. Returns `bitno` and the
buffer. -/
def read_bit_outer (n : Nat) :
    List Nat → Nat → Nat → (Nat → Int) → Nat × (Nat → Int)
  | [], _, bitno, patt => (bitno, patt)
  | b :: rest, p, bitno, patt =>
    let patt1 := Function.update patt p (((b &&& 0x0001 : Nat)) : Int)
    let s := read_bit_inner b n 7 1 (p + 1) (bitno + 1) patt1
    read_bit_outer n rest s.1 s.2.1 s.2.2

/-- The loop `for (p = patt, j = 0; j < bitno; j++, p++) *p = (*p) ? one : zero;`
of `read_bit`. The first argument is the number `bitno - j` of iterations left. -/
def read_bit_soft (one zero : Int) : Nat → Nat → (Nat → Int) → (Nat → Int)
  | 0, _, patt => patt
  | r + 1, j, patt =>
    read_bit_soft one zero r (j + 1)
      (Function.update patt j (if patt j ≠ 0 then one else zero))

/-- The function `read_bit (patt, n, F, type)`. `rd` is what
`fread (bits, sizeof (char), nbytes, F)` did: at most `nbytes` items are
stored. The result is the returned `long` and the buffer `patt` after the
call. -/
def read_bit (h : SoftbitH) (patt : Nat → Int) (n : Nat) (rd : Fread Nat)
    (type : Int) : Int × (Nat → Int) :=
  if n = 0 then (0, patt)
  else
    let nbytes := nbytes_of n
    let patt0 : Nat → Int := fun i => if i < n then 0 else patt i
    let bits := (rd.items.take nbytes).map (fun b => b % 256)
    if rd.error then (-1, patt0)
    else
      let s := read_bit_outer n bits 0 0 patt0
      let patt2 :=
        if type = h.BER then read_bit_soft 0x0081 0x007F s.1 0 s.2
        else if type = h.FER then read_bit_soft 0x6B20 0x6B21 s.1 0 s.2
        else s.2
      ((s.1 : Int), patt2)

/-! ## `read_byte` and `save_byte` -/

/-- The conversion loop of `read_byte`,
`for (i = 0; i < n; i++) { tmp = byte[i]; if (tmp == 0x20 || tmp == 0x21) patt[i] = 0x6B00 | tmp; else patt[i] = tmp; }`.
`byte` is the scratch buffer (zero-filled by `calloc` beyond what was read),
the first argument the number `n - i` of iterations left; `tmp` is an
`unsigned char`. -/
def read_byte_loop (byte : List Nat) : Nat → Nat → (Nat → Int) → (Nat → Int)
  | 0, _, patt => patt
  | r + 1, i, patt =>
    let tmp : Nat := byte.getD i 0 % 256
    read_byte_loop byte r (i + 1)
      (Function.update patt i
        (if tmp = 0x20 ∨ tmp = 0x21 then ((0x6B00 ||| tmp : Nat) : Int) else (tmp : Int)))

/-- The function `read_byte (patt, n, F)`. `rd` is what
`fread (byte, sizeof (char), n, F)` did (at most `n` items are stored); the
error indicator of the stream is never consulted. The result is the returned
`long` and the buffer `patt` after the call. -/
def read_byte (patt : Nat → Int) (n : Nat) (rd : Fread Nat) : Int × (Nat → Int) :=
  if n = 0 then (0, patt)
  else
    let byte := rd.items.take n
    let i := byte.length
    if i < n then
      if i ≤ 0 then ((i : Int), patt)
      else ((i : Int), read_byte_loop byte i 0 patt)
    else ((n : Int), read_byte_loop byte n 0 patt)

/-- The function `save_byte (patt, n, F)`: `byte[i] = (unsigned char) (patt[i] & 0x00FF)`
for every `i < n`. `w` is the count the `fwrite` call reports. The result is
the returned `long` and the `n` bytes handed to `fwrite`. -/
def save_byte (patt : Nat → Int) (n : Nat) (w : Nat) : Int × List Nat :=
  if n = 0 then (0, [])
  else
    let byte := (List.range n).map (fun i => (patt i % 256).toNat)
    let i : Int := w
    (if (n : Int) < i then -1 else n, byte)

/-! ## `check_eid_format` -/

/-- A seekable stream: the bytes of the file and the current offset. -/
structure FILE where
  bytes : List Nat
  offset : Nat
deriving DecidableEq

/-- How a call of `check_eid_format` ends: `exit (status)` ends the process;
otherwise the function returns `ret_val`, has stored `type` through its
pointer argument, and leaves the stream `F`. -/
inductive Detected where
  | exit (status : Nat)
  | ret (ret_val : Int) (type : Int) (F : FILE)
deriving DecidableEq

/-- The classification a call returned, as `(format, class)`, if it
returned. -/
def Detected.classification : Detected → Option (Int × Int)
  | Detected.exit _ => none
  | Detected.ret ret_val type _ => some (ret_val, type)

/-- The call `fread (&word, sizeof (short), 1, F)`: the 16-bit pattern held by
`word` after the call, and the stream. Two bytes are combined in the byte
order of the host, least significant byte first when `lsb_first` holds; when
fewer than two bytes are left the variable keeps an
indeterminate pattern, given by `word0`. -/
def fread_short (lsb_first : Bool) (word0 : Nat) (F : FILE) : Nat × FILE :=
  match F.bytes.drop F.offset with
  | b0 :: b1 :: _ =>
    (if lsb_first then b0 % 256 + 256 * (b1 % 256) else 256 * (b0 % 256) + b1 % 256,
      ⟨F.bytes, F.offset + 2⟩)
  | _ => (word0 % 65536, ⟨F.bytes, max F.offset F.bytes.length⟩)

/-- The call `fseek (F, off, SEEK_SET)`. -/
def fseek_set (F : FILE) (off : Nat) : FILE := ⟨F.bytes, off⟩

/-- The `switch ((unsigned short) word)` of `check_eid_format`: `none` is the
branch that calls `exit (8)`, `some (type, ret_val)` the values the other
branches assign. -/
def eid_switch (h : SoftbitH) (word : Nat) : Option (Int × Int) :=
  if word = 0x7F7F ∨ word = 0x7F81 ∨ word = 0x8181 ∨ word = 0x817F then
    some (h.BER, h.byte)
  else if word = 0x2020 ∨ word = 0x2021 ∨ word = 0x2120 ∨ word = 0x2121 then
    some (h.FER, h.byte)
  else if word = 0x007F ∨ word = 0x0081 then some (h.BER, h.g192)
  else if word = 0x6B21 ∨ word = 0x6B20 then some (h.FER, h.g192)
  else if word = 0x7F00 ∨ word = 0x8100 ∨ word = 0x216B ∨ word = 0x206B then none
  else some (h.nil, h.compact)

/-- The host on which the program runs, as far as `check_eid_format` depends on
it: whether it stores the least significant byte of an integer first
(little-endian) and the number of bytes of an `unsigned long`. -/
structure Host where
  lsb_first : Bool
  sizeof_long : Nat
deriving DecidableEq

/-- The bytes of `unsigned long tmp = 0x41424344` in the memory of the host,
lowest address first. -/
def tmp_bytes (host : Host) : List Nat :=
  let lsb := (List.range host.sizeof_long).map (fun i => 0x41424344 / 256 ^ i % 256)
  if host.lsb_first then lsb else lsb.reverse

/-- The value of `little_endian = strncmp ("ABCD", (char *) &tmp, 4)` as a
truth value: non-zero unless the first four bytes of `tmp` are those of
"ABCD". -/
def endian_probe (host : Host) : Bool :=
  decide ((tmp_bytes host).take 4 ≠ [0x41, 0x42, 0x43, 0x44])

/-- The function `check_eid_format (F, file, type)` on the host `host`.
`little_endian` is the local variable of that name, set by the probe; `fread`
assembles the word in the byte order of the host. `word0` is the indeterminate
initial content of `word`. The variable `word` is held as its 16-bit pattern,
so that `word = ((word >> 8) & 0xFF) | ((word << 8))` keeps the low 16 bits,
and `((unsigned) word >> 8) & 0xF0` reads bits 12..15 of it. -/
def check_eid_format (h : SoftbitH) (host : Host) (word0 : Nat)
    (F : FILE) : Detected :=
  let little_endian := endian_probe host
  let r := fread_short host.lsb_first word0 F
  let word := r.1
  match eid_switch h word with
  | none => Detected.exit 8
  | some (type, ret_val) =>
    let word1 :=
      if little_endian then (((word >>> 8) &&& 0xFF) ||| (word <<< 8)) % 65536 else word
    if type = h.nil ∧ ((word1 >>> 8) &&& 0xF0) = 0x20 then
      Detected.ret h.byte h.FER (fseek_set r.2 0)
    else Detected.ret ret_val type (fseek_set r.2 0)

/-! ## `read_g192` and `save_g192` -/

/-- The function `read_g192 (patt, n, F)`. `rd` is what
`fread (patt, sizeof (short), n, F)` did: at most `n` shorts are stored at the
start of `patt`. The result is the returned `long`, `ferror (F) ? -1l : i`, and
the buffer after the call. -/
def read_g192 (patt : Nat → Int) (n : Nat) (rd : Fread Int) : Int × (Nat → Int) :=
  let items := rd.items.take n
  let i := items.length
  (if rd.error then -1 else (i : Int),
    fun x => if x < i then items.getD x 0 else patt x)

/-- The function `save_g192 (patt, n, F)`, of which only the returned `long`
is kept: `(i < n ? -1l : n)` with `i` the count `w` that `fwrite` reports. -/
def save_g192 (n : Nat) (w : Nat) : Int :=
  let i : Int := w
  if i < (n : Int) then -1 else n

/-! ## `format_str` and `type_str` -/

/-- The function `format_str (fmt)`: a `switch` on `byte`, `g192`, `compact`,
and `return ""` after it. -/
def format_str (h : SoftbitH) (fmt : Int) : String :=
  if fmt = h.byte then "byte"
  else if fmt = h.g192 then "g192"
  else if fmt = h.compact then "bit"
  else ""

/-- The function `type_str (type)`: a `switch` on `BER`, `FER`, and
`return ""` after it. -/
def type_str (h : SoftbitH) (type : Int) : String :=
  if type = h.BER then "BER"
  else if type = h.FER then "FER"
  else ""

/-! ## `soft2hard` -/

/-- The loop of `soft2hard` under `case BER`:
`for (i = 0; i < n; i++) { tmp = *soft++; if (tmp == G192_ONE) *hard++ = 1; else if (tmp == G192_ZERO) *hard++ = 0; else unexpected++; }`.
The first argument is the number `n - i` of iterations left, `i` the index of
`soft`, `hp` the index `hard - hard0` of the output pointer. Returns
`(unexpected, hp, hard)`. -/
def soft2hard_ber (soft : Nat → Int) :
    Nat → Nat → Nat → (Nat → Int) → Nat → Nat × Nat × (Nat → Int)
  | 0, _, hp, hard, unexpected => (unexpected, hp, hard)
  | r + 1, i, hp, hard, unexpected =>
    let tmp := soft i
    if tmp = G192_ONE then
      soft2hard_ber soft r (i + 1) (hp + 1) (Function.update hard hp 1) unexpected
    else if tmp = G192_ZERO then
      soft2hard_ber soft r (i + 1) (hp + 1) (Function.update hard hp 0) unexpected
    else soft2hard_ber soft r (i + 1) hp hard (unexpected + 1)

/-- The loop of `soft2hard` under `case FER`:
`for (i = 0; i < n; i++) { tmp = *soft++; if (tmp == G192_FER) *hard++ = 1; else if ((tmp >> 4) == 0x06B2) *hard++ = 0; else unexpected++; }`,
with the arguments of `soft2hard_ber`. `tmp` is a `short`, shifted
arithmetically. -/
def soft2hard_fer (soft : Nat → Int) :
    Nat → Nat → Nat → (Nat → Int) → Nat → Nat × Nat × (Nat → Int)
  | 0, _, hp, hard, unexpected => (unexpected, hp, hard)
  | r + 1, i, hp, hard, unexpected =>
    let tmp := soft i
    if tmp = G192_FER then
      soft2hard_fer soft r (i + 1) (hp + 1) (Function.update hard hp 1) unexpected
    else if tmp >>> (4 : Nat) = 0x06B2 then
      soft2hard_fer soft r (i + 1) (hp + 1) (Function.update hard hp 0) unexpected
    else soft2hard_fer soft r (i + 1) hp hard (unexpected + 1)

/-- The function `soft2hard (soft, hard, n, type)`, for buffers `soft` and
`hard` that do not overlap. The result is the returned count `unexpected` and
the buffer `hard` after the call; a `type` other than `BER` and `FER` runs no
loop. -/
def soft2hard (h : SoftbitH) (soft hard : Nat → Int) (n : Nat) (type : Int) :
    Nat × (Nat → Int) :=
  if type = h.BER then
    let s := soft2hard_ber soft n 0 0 hard 0
    (s.1, s.2.2)
  else if type = h.FER then
    let s := soft2hard_fer soft n 0 0 hard 0
    (s.1, s.2.2)
  else (0, hard)

/-- The tests of the `BER` loop of `soft2hard` on one softbit: the value stored
through `*hard++`, or `none` when `unexpected++` is run instead. -/
def hard_of_ber (tmp : Int) : Option Int :=
  if tmp = G192_ONE then some 1 else if tmp = G192_ZERO then some 0 else none

/-- The tests of the `FER` loop of `soft2hard` on one softbit: the value stored
through `*hard++`, or `none` when `unexpected++` is run instead. -/
def hard_of_fer (tmp : Int) : Option Int :=
  if tmp = G192_FER then some 1 else if tmp >>> (4 : Nat) = 0x06B2 then some 0 else none

/-! ## The elements `save_bit` reads -/

/-- The inner loop of `save_bit` with the same control as `save_bit_inner`,
keeping, instead of `tmp`, the list of the indices `p - patt` read through
`*p++`, in the order of the reads. -/
def save_bit_inner_reads (n : Nat) :
    Nat → Nat → Nat → Nat → List Nat → Nat × Nat × List Nat
  | 0, _, p, i, reads => (p, i, reads)
  | fuel + 1, k, p, i, reads =>
    if k < 8 ∧ i < n then
      save_bit_inner_reads n fuel (k + 1) (p + 1) (i + 1) (reads ++ [p])
    else (p, i, reads)

/-- The outer loop of `save_bit` with the same control as `save_bit_outer`,
returning the indices read: the first bit of each byte is read through `*p++`
without a test, the others by the inner loop. -/
def save_bit_outer_reads (n : Nat) : Nat → Nat → Nat → List Nat → List Nat
  | 0, _, _, reads => reads
  | r + 1, p, i, reads =>
    let s := save_bit_inner_reads n 7 1 (p + 1) i (reads ++ [p])
    save_bit_outer_reads n r s.1 s.2.1 s.2.2

/-- The indices of `patt` that `save_bit (patt, n, F)` reads, in order: index 0
by `switch (*p)`, then those of the packing loop. -/
def save_bit_reads (n : Nat) : List Nat :=
  if n = 0 then []
  else save_bit_outer_reads n (nbytes_of n) 0 0 [0]

/-! ## The elements `read_bit` stores -/

/-- The inner loop of `read_bit` with the same control as `read_bit_inner`,
keeping, instead of the buffer, the list of the indices `p - patt` stored
through `*p++`, in the order of the stores. -/
def read_bit_inner_stores (n : Nat) :
    Nat → Nat → Nat → Nat → List Nat → Nat × Nat × List Nat
  | 0, _, p, bitno, stores => (p, bitno, stores)
  | fuel + 1, k, p, bitno, stores =>
    if k < 8 ∧ bitno < n then
      read_bit_inner_stores n fuel (k + 1) (p + 1) (bitno + 1) (stores ++ [p])
    else (p, bitno, stores)

/-- The outer loop of `read_bit` with the same control as `read_bit_outer`,
returning the indices stored while the bytes are expanded: the first bit of
each byte is stored through `*p++` without a test on `bitno`, the others by
the inner loop. -/
def read_bit_outer_stores (n : Nat) : List Nat → Nat → Nat → List Nat → List Nat
  | [], _, _, stores => stores
  | _ :: rest, p, bitno, stores =>
    let s := read_bit_inner_stores n 7 1 (p + 1) (bitno + 1) (stores ++ [p])
    read_bit_outer_stores n rest s.1 s.2.1 s.2.2

/-- The indices of `patt` that `read_bit (patt, n, F, type)` stores into while
it expands the bytes read, in order; none when `n == 0` or the stream reports
an error. -/
def read_bit_stores (n : Nat) (rd : Fread Nat) : List Nat :=
  if n = 0 then []
  else
    let bits := (rd.items.take (nbytes_of n)).map (fun b => b % 256)
    if rd.error then []
    else read_bit_outer_stores n bits 0 0 []

/-! ## Lemmas on `save_bit` -/

theorem ite_one_zero_testBit (c : Prop) [Decidable c] (m : Nat) :
    (if c then 1 else 0 : Nat).testBit m = decide (m = 0 ∧ c) := by
  by_cases hc : c
  · simp only [hc, if_true, and_true]
    rcases Nat.eq_zero_or_pos m with h0 | h0
    · subst h0; simp
    · have : m ≠ 0 := by omega
      simp only [this, decide_False]
      exact Nat.testBit_lt_two_pow (Nat.one_lt_two_pow this)
  · simp [hc]

theorem save_bit_inner_spec (patt : Nat → Int) (one : Int) (n : Nat) :
    ∀ fuel k p i tmp, k + fuel = 8 → tmp < 2 ^ k →
      (∀ m, m < 8 → (save_bit_inner patt one n fuel k p i tmp).2.2.testBit m =
        if m < k then tmp.testBit m
        else decide (i + (m - k) < n ∧ patt (p + (m - k)) = one)) ∧
      (i + fuel ≤ n → (save_bit_inner patt one n fuel k p i tmp).1 = p + fuel ∧
        (save_bit_inner patt one n fuel k p i tmp).2.1 = i + fuel) := by
  intro fuel
  induction fuel with
  | zero =>
    intro k p i tmp hk _
    have hk8 : k = 8 := by omega
    subst hk8
    refine ⟨fun m hm => ?_, fun _ => ?_⟩
    · simp [save_bit_inner, hm]
    · simp [save_bit_inner]
  | succ fuel ih =>
    intro k p i tmp hk ht
    have hk7 : k < 8 := by omega
    by_cases hi : i < n
    · have hpow : 2 ^ (k + 1) ≤ 256 := by
        have : 2 ^ (k + 1) ≤ 2 ^ 8 := Nat.pow_le_pow_right (by decide) (by omega)
        simpa using this
      have hsucc : 2 ^ (k + 1) = 2 ^ k * 2 := pow_succ 2 k
      have hstep : (tmp + ((if patt p = one then 1 else 0) <<< k) % 256) % 256
          = 2 ^ k * (if patt p = one then 1 else 0) + tmp := by
        rw [Nat.shiftLeft_eq]
        by_cases hp : patt p = one
        · simp only [hp, if_true, one_mul, mul_one]
          rw [Nat.mod_eq_of_lt (by omega), Nat.mod_eq_of_lt (by omega)]; omega
        · simp only [hp, if_false, zero_mul, mul_zero, Nat.zero_mod, add_zero, zero_add]
          exact Nat.mod_eq_of_lt (by omega)
      have hlt : 2 ^ k * (if patt p = one then 1 else 0) + tmp < 2 ^ (k + 1) := by
        by_cases hp : patt p = one
        · simp only [hp, if_true, mul_one]; omega
        · simp only [hp, if_false, mul_zero, zero_add]; omega
      have hrec := ih (k + 1) (p + 1) (i + 1)
        (2 ^ k * (if patt p = one then 1 else 0) + tmp) (by omega) hlt
      have hunf : save_bit_inner patt one n (fuel + 1) k p i tmp
          = save_bit_inner patt one n fuel (k + 1) (p + 1) (i + 1)
            (2 ^ k * (if patt p = one then 1 else 0) + tmp) := by
        simp only [save_bit_inner, hk7, hi, and_self, if_true, hstep]
      rw [hunf]
      refine ⟨fun m hm => ?_, fun hn => ?_⟩
      · rw [hrec.1 m hm, Nat.testBit_mul_pow_two_add _ ht, ite_one_zero_testBit]
        rcases Nat.lt_trichotomy m k with hmk | hmk | hmk
        · simp [hmk, Nat.lt_succ_of_lt hmk]
        · subst hmk; simp [hi]
        · have h1 : ¬ m < k := by omega
          have h2 : ¬ m < k + 1 := by omega
          have h3 : i + 1 + (m - (k + 1)) = i + (m - k) := by omega
          have h4 : p + 1 + (m - (k + 1)) = p + (m - k) := by omega
          simp only [h1, h2, if_false, h3, h4]
      · have := hrec.2 (by omega)
        constructor <;> omega
    · have hunf : save_bit_inner patt one n (fuel + 1) k p i tmp = (p, i, tmp) := by
        simp only [save_bit_inner, hi, and_false, if_false]
      rw [hunf]
      refine ⟨fun m hm => ?_, fun hn => by omega⟩
      by_cases hmk : m < k
      · simp [hmk]
      · have hif : ¬ (i + (m - k) < n) := by omega
        simp only [hmk, if_false, hif, false_and, decide_False]
        apply Nat.testBit_lt_two_pow
        exact lt_of_lt_of_le ht (Nat.pow_le_pow_right (by decide) (by omega))

theorem save_bit_outer_length (patt : Nat → Int) (one : Int) (n : Nat) :
    ∀ r p i, (save_bit_outer patt one n r p i).length = r := by
  intro r
  induction r with
  | zero => intro p i; rfl
  | succ r ih => intro p i; simp [save_bit_outer, ih]

theorem save_bit_outer_spec (patt : Nat → Int) (one : Int) (n : Nat) :
    ∀ r j, j + r = nbytes_of n → ∀ t, t < r → ∀ m, m < 8 →
      ((save_bit_outer patt one n r (8 * j) (7 * j)).getD t 0).testBit m =
        decide ((m = 0 ∨ 7 * (j + t) + m ≤ n) ∧ patt (8 * (j + t) + m) = one) := by
  intro r
  induction r with
  | zero => intro j _ t ht; omega
  | succ r ih =>
    intro j hj t ht m hm
    have hin := save_bit_inner_spec patt one n 7 1 (8 * j + 1) (7 * j)
      (if patt (8 * j) = one then 1 else 0) (by omega)
      (by by_cases hp : patt (8 * j) = one <;> simp [hp])
    cases t with
    | zero =>
      simp only [save_bit_outer, List.getD_cons_zero, add_zero]
      rw [hin.1 m hm, ite_one_zero_testBit]
      rcases Nat.eq_zero_or_pos m with h0 | h0
      · subst h0; simp
      · have h1 : ¬ m < 1 := by omega
        have h2 : m ≠ 0 := by omega
        have h3 : 8 * j + 1 + (m - 1) = 8 * j + m := by omega
        have h4 : (7 * j + (m - 1) < n) = (7 * j + m ≤ n) := by
          apply propext; constructor <;> intro h <;> omega
        simp only [h1, if_false, h2, false_or, h3, h4]
    | succ t =>
      have hr : 7 * j + 7 ≤ n := by unfold nbytes_of at hj; omega
      have hst := hin.2 hr
      simp only [save_bit_outer, List.getD_cons_succ]
      rw [hst.1, hst.2]
      have e1 : 8 * j + 1 + 7 = 8 * (j + 1) := by omega
      have e2 : 7 * j + 7 = 7 * (j + 1) := by omega
      rw [e1, e2, ih (j + 1) (by omega) t (by omega) m hm]
      have e3 : j + 1 + t = j + (t + 1) := by omega
      rw [e3]

/-- The bytes `save_bit` hands to `fwrite`, bit by bit: bit `m` of byte `t` is
set exactly when `patt[8 t + m]` equals `one` and the element was reached by the
loop: the first bit of a byte always is, bit `m ≥ 1` only while the counter
`i = 7 t + m - 1` is below `n`. -/
theorem save_bit_bits (one0 : Int) (patt : Nat → Int) (n w : Nat) (hn : 1 ≤ n)
    (t m : Nat) (ht : t < nbytes_of n) (hm : m < 8) :
    (((save_bit one0 patt n w).2).getD t 0).testBit m =
      decide ((m = 0 ∨ 7 * t + m ≤ n) ∧ patt (8 * t + m) = save_bit_one one0 (patt 0)) := by
  have h := save_bit_outer_spec patt (save_bit_one one0 (patt 0)) n (nbytes_of n) 0
    (by omega) t ht m hm
  have hn0 : n ≠ 0 := by omega
  simp only [save_bit, hn0, if_false]
  simpa using h

theorem save_bit_length (one0 : Int) (patt : Nat → Int) (n w : Nat) (hn : 1 ≤ n) :
    ((save_bit one0 patt n w).2).length = nbytes_of n := by
  have hn0 : n ≠ 0 := by omega
  simp only [save_bit, hn0, if_false, save_bit_outer_length]

theorem save_bit_bit_at (one0 : Int) (patt : Nat → Int) (n w i : Nat) (hn : 1 ≤ n)
    (hi : i < n) :
    (((save_bit one0 patt n w).2).getD (i / 8) 0).testBit (i % 8) =
      decide (patt i = save_bit_one one0 (patt 0)) := by
  have ht : i / 8 < nbytes_of n := by unfold nbytes_of; omega
  rw [save_bit_bits one0 patt n w hn (i / 8) (i % 8) ht (Nat.mod_lt _ (by decide))]
  have h1 : 8 * (i / 8) + i % 8 = i := by omega
  have h2 : (i % 8 = 0 ∨ 7 * (i / 8) + i % 8 ≤ n) := Or.inr (by omega)
  simp only [h1, h2, true_and]

/-! ## Lemmas on `read_bit` -/

theorem shiftRight_and_one (b k : Nat) :
    (((b >>> k) &&& 0x0001 : Nat) : Int) = if b.testBit k then 1 else 0 := by
  rw [Nat.and_one_is_mod, Nat.shiftRight_eq_div_pow, Nat.testBit_to_div_mod]
  rcases Nat.mod_two_eq_zero_or_one (b / 2 ^ k) with h | h <;> simp [h]

theorem and_one_cast (b : Nat) :
    (((b &&& 0x0001 : Nat)) : Int) = if b.testBit 0 then 1 else 0 := by
  have := shiftRight_and_one b 0
  simpa using this

theorem read_bit_inner_spec (b n : Nat) :
    ∀ fuel k p patt, k + fuel = 8 →
      (read_bit_inner b n fuel k p p patt).1 = p + min fuel (n - p) ∧
      (read_bit_inner b n fuel k p p patt).2.1 = p + min fuel (n - p) ∧
      ∀ x, (read_bit_inner b n fuel k p p patt).2.2 x =
        if p ≤ x ∧ x < p + min fuel (n - p) then
          (if b.testBit (k + (x - p)) then 1 else 0)
        else patt x := by
  intro fuel
  induction fuel with
  | zero =>
    intro k p patt _
    refine ⟨by simp [read_bit_inner], by simp [read_bit_inner], fun x => ?_⟩
    have h2 : ¬ (p ≤ x ∧ x < p + min 0 (n - p)) := by omega
    simp only [read_bit_inner, h2, if_false]
  | succ fuel ih =>
    intro k p patt hk
    have hk7 : k < 8 := by omega
    by_cases hp : p < n
    · have hunf : read_bit_inner b n (fuel + 1) k p p patt
          = read_bit_inner b n fuel (k + 1) (p + 1) (p + 1)
              (Function.update patt p (if b.testBit k then 1 else 0)) := by
        simp only [read_bit_inner, hk7, hp, and_self, if_true, shiftRight_and_one]
      have hrec := ih (k + 1) (p + 1)
        (Function.update patt p (if b.testBit k then 1 else 0)) (by omega)
      have hmin : p + 1 + min fuel (n - (p + 1)) = p + min (fuel + 1) (n - p) := by omega
      rw [hunf, hrec.1, hrec.2.1, hmin]
      refine ⟨rfl, rfl, fun x => ?_⟩
      rw [hrec.2.2 x, hmin]
      by_cases hx : x = p
      · subst hx
        have h1 : ¬ (x + 1 ≤ x ∧ x < x + min (fuel + 1) (n - x)) := by omega
        have h2 : x ≤ x ∧ x < x + min (fuel + 1) (n - x) := by omega
        simp [h1, h2]
      · rw [Function.update_noteq hx]
        by_cases hr : p + 1 ≤ x ∧ x < p + min (fuel + 1) (n - p)
        · have h2 : p ≤ x ∧ x < p + min (fuel + 1) (n - p) := by omega
          have h3 : k + 1 + (x - (p + 1)) = k + (x - p) := by omega
          simp only [hr, h2, and_self, if_true, h3]
        · have h2 : ¬ (p ≤ x ∧ x < p + min (fuel + 1) (n - p)) := by omega
          simp only [hr, h2, if_false]
    · have hunf : read_bit_inner b n (fuel + 1) k p p patt = (p, p, patt) := by
        simp only [read_bit_inner, hp, and_false, if_false]
      have hmin : min (fuel + 1) (n - p) = 0 := by omega
      rw [hunf, hmin]
      refine ⟨rfl, rfl, fun x => ?_⟩
      have h2 : ¬ (p ≤ x ∧ x < p + 0) := by omega
      simp only [h2, if_false]

theorem read_bit_outer_spec (n : Nat) :
    ∀ bs j patt, (bs ≠ [] → 8 * (j + bs.length) < n + 8) →
      (read_bit_outer n bs (min n (8 * j)) (min n (8 * j)) patt).1
        = min n (8 * (j + bs.length)) ∧
      ∀ x, (read_bit_outer n bs (min n (8 * j)) (min n (8 * j)) patt).2 x =
        if 8 * j ≤ x ∧ x < min n (8 * (j + bs.length)) then
          (if (bs.getD (x / 8 - j) 0).testBit (x % 8) then 1 else 0)
        else patt x := by
  intro bs
  induction bs with
  | nil =>
    intro j patt _
    refine ⟨by simp [read_bit_outer], fun x => ?_⟩
    have h2 : ¬ (8 * j ≤ x ∧ x < min n (8 * (j + ([] : List Nat).length))) := by
      simp only [List.length_nil]; omega
    simp only [read_bit_outer, h2, if_false]
  | cons b rest ih =>
    intro j patt hlen
    have hl := hlen (by simp)
    simp only [List.length_cons] at hl
    have hj : min n (8 * j) = 8 * j := by omega
    have hin := read_bit_inner_spec b n 7 1 (8 * j + 1)
      (Function.update patt (8 * j) (if b.testBit 0 then 1 else 0)) (by omega)
    have hmin : 8 * j + 1 + min 7 (n - (8 * j + 1)) = min n (8 * (j + 1)) := by omega
    rw [hmin] at hin
    have hrec := ih (j + 1) (read_bit_inner b n 7 1 (8 * j + 1) (8 * j + 1)
      (Function.update patt (8 * j) (if b.testBit 0 then 1 else 0))).2.2
      (by intro _; omega)
    have hunf : read_bit_outer n (b :: rest) (min n (8 * j)) (min n (8 * j)) patt
        = read_bit_outer n rest (min n (8 * (j + 1))) (min n (8 * (j + 1)))
            (read_bit_inner b n 7 1 (8 * j + 1) (8 * j + 1)
              (Function.update patt (8 * j) (if b.testBit 0 then 1 else 0))).2.2 := by
      rw [hj]
      simp only [read_bit_outer, and_one_cast]
      rw [hin.1, hin.2.1]
    have hlen2 : j + 1 + rest.length = j + (rest.length + 1) := by omega
    rw [hunf, hrec.1, hlen2]
    refine ⟨by simp, fun x => ?_⟩
    rw [hrec.2 x, hin.2.2 x, hlen2]
    simp only [List.length_cons]
    by_cases hx1 : 8 * (j + 1) ≤ x ∧ x < min n (8 * (j + (rest.length + 1)))
    · have h2 : 8 * j ≤ x ∧ x < min n (8 * (j + (rest.length + 1))) := by omega
      have h3 : x / 8 - j = (x / 8 - (j + 1)) + 1 := by omega
      simp only [hx1, h2, and_self, if_true, h3, List.getD_cons_succ]
    · simp only [hx1, if_false]
      by_cases hx2 : 8 * j + 1 ≤ x ∧ x < min n (8 * (j + 1))
      · have h2 : 8 * j ≤ x ∧ x < min n (8 * (j + (rest.length + 1))) := by omega
        have h3 : x / 8 - j = 0 := by omega
        have h4 : 1 + (x - (8 * j + 1)) = x % 8 := by omega
        simp only [hx2, h2, and_self, if_true, h3, h4, List.getD_cons_zero]
      · simp only [hx2, if_false]
        by_cases hx3 : x = 8 * j
        · have h2 : 8 * j ≤ x ∧ x < min n (8 * (j + (rest.length + 1))) := by omega
          have h3 : x / 8 - j = 0 := by omega
          have h4 : x % 8 = 0 := by omega
          simp only [h2, and_self, if_true, h3, h4, List.getD_cons_zero]
          rw [hx3, Function.update_same]
        · have h2 : ¬ (8 * j ≤ x ∧ x < min n (8 * (j + (rest.length + 1)))) := by omega
          simp only [h2, if_false]
          rw [Function.update_noteq hx3]

theorem read_bit_soft_spec (one zero : Int) :
    ∀ r j patt x, read_bit_soft one zero r j patt x =
      if j ≤ x ∧ x < j + r then (if patt x ≠ 0 then one else zero) else patt x := by
  intro r
  induction r with
  | zero =>
    intro j patt x
    have h2 : ¬ (j ≤ x ∧ x < j + 0) := by omega
    simp only [read_bit_soft, h2, if_false]
  | succ r ih =>
    intro j patt x
    simp only [read_bit_soft]
    rw [ih]
    by_cases hx : x = j
    · subst hx
      have h1 : ¬ (x + 1 ≤ x ∧ x < x + 1 + r) := by omega
      have h2 : x ≤ x ∧ x < x + (r + 1) := by omega
      simp only [h1, h2, and_self, if_true, if_false, Function.update_same]
    · rw [Function.update_noteq hx]
      by_cases hr : j + 1 ≤ x ∧ x < j + 1 + r
      · have h2 : j ≤ x ∧ x < j + (r + 1) := by omega
        simp only [hr, h2, and_self, if_true]
      · have h2 : ¬ (j ≤ x ∧ x < j + (r + 1)) := by omega
        simp only [hr, h2, if_false]

theorem getD_map_take (f : Nat → Nat) (l : List Nat) (k t : Nat)
    (ht : t < min l.length k) :
    ((l.take k).map f).getD t 0 = f (l.getD t 0) := by
  have h1 : t < k := by omega
  have h2 : t < l.length := by omega
  simp [List.getD_eq_getElem?_getD, List.getElem?_map, List.getElem?_take, h1, h2]

theorem testBit_mod_256 (b m : Nat) (hm : m < 8) : (b % 256).testBit m = b.testBit m := by
  have h : (256 : Nat) = 2 ^ 8 := by norm_num
  rw [h, Nat.testBit_mod_two_pow]
  simp [hm]

/-- Without a stream error `read_bit` returns `min n (8 r)` for the `r` bytes
stored by `fread`, and the first `min n (8 r)` elements of the buffer hold the
hard bits of those bytes, taken LSB first (before the conversion to softbits
these are 1 and 0), while the rest of the first `n` elements is zero. -/
theorem read_bit_outer_run (patt : Nat → Int) (n : Nat) (items : List Nat) :
    (read_bit_outer n ((items.take (nbytes_of n)).map (fun b => b % 256)) 0 0
        (fun i => if i < n then 0 else patt i)).1
      = min n (8 * min items.length (nbytes_of n)) ∧
    ∀ x, (read_bit_outer n ((items.take (nbytes_of n)).map (fun b => b % 256)) 0 0
        (fun i => if i < n then 0 else patt i)).2 x =
      if x < min n (8 * min items.length (nbytes_of n)) then
        (if (items.getD (x / 8) 0).testBit (x % 8) then 1 else 0)
      else if x < n then 0 else patt x := by
  have hlen : ((items.take (nbytes_of n)).map (fun b => b % 256)).length
      = min items.length (nbytes_of n) := by
    simp [List.length_take, Nat.min_comm]
  have hle : 8 * min items.length (nbytes_of n) < n + 8 := by
    unfold nbytes_of; omega
  have hsp := read_bit_outer_spec n ((items.take (nbytes_of n)).map (fun b => b % 256)) 0
    (fun i => if i < n then 0 else patt i) (by intro _; rw [hlen]; omega)
  have h0 : min n (8 * 0) = 0 := by omega
  rw [h0, hlen] at hsp
  simp only [zero_add, Nat.sub_zero] at hsp
  refine ⟨hsp.1, fun x => ?_⟩
  rw [hsp.2 x]
  have hx0 : 8 * 0 ≤ x := by omega
  simp only [hx0, true_and]
  by_cases hx : x < min n (8 * min items.length (nbytes_of n))
  · simp only [hx, if_true]
    have e1 : (((items.take (nbytes_of n)).map (fun b => b % 256)).getD (x / 8) 0).testBit (x % 8)
        = (items.getD (x / 8) 0).testBit (x % 8) := by
      rw [getD_map_take (fun b => b % 256) items (nbytes_of n) (x / 8) (by omega)]
      exact testBit_mod_256 _ _ (Nat.mod_lt _ (by decide))
    simp only [e1]
  · simp only [hx, if_false]

theorem read_bit_ok (h : SoftbitH) (patt : Nat → Int) (n : Nat) (rd : Fread Nat)
    (type : Int) (hn : 1 ≤ n) (herr : rd.error = false) :
    (read_bit h patt n rd type).1
      = ((min n (8 * min rd.items.length (nbytes_of n)) : Nat) : Int) ∧
    ∀ x, x < min n (8 * min rd.items.length (nbytes_of n)) →
      (type = h.BER → (read_bit h patt n rd type).2 x =
        if (rd.items.getD (x / 8) 0).testBit (x % 8) then 0x0081 else 0x007F) ∧
      (type = h.FER → (read_bit h patt n rd type).2 x =
        if (rd.items.getD (x / 8) 0).testBit (x % 8) then 0x6B20 else 0x6B21) := by
  have hn0 : n ≠ 0 := by omega
  have hrun := read_bit_outer_run patt n rd.items
  refine ⟨?_, fun x hx => ⟨fun ht => ?_, fun ht => ?_⟩⟩
  · simp only [read_bit, hn0, if_false, herr, Bool.false_eq_true, hrun.1]
  · simp only [read_bit, hn0, if_false, herr, Bool.false_eq_true, ht, if_true]
    rw [read_bit_soft_spec, hrun.1, hrun.2 x]
    have hx2 : 0 ≤ x ∧ x < 0 + min n (8 * min rd.items.length (nbytes_of n)) := by omega
    simp only [hx2, and_self, if_true, hx]
    by_cases hb : (rd.items.getD (x / 8) 0).testBit (x % 8) = true <;> simp [hb]
  · have hne : h.FER ≠ h.BER := fun e => h.BER_ne_FER e.symm
    simp only [read_bit, hn0, if_false, herr, Bool.false_eq_true, ht, hne, if_true]
    rw [read_bit_soft_spec, hrun.1, hrun.2 x]
    have hx2 : 0 ≤ x ∧ x < 0 + min n (8 * min rd.items.length (nbytes_of n)) := by omega
    simp only [hx2, and_self, if_true, hx]
    by_cases hb : (rd.items.getD (x / 8) 0).testBit (x % 8) = true <;> simp [hb]

/-! ## Lemmas on `read_byte` -/

theorem read_byte_loop_spec (byte : List Nat) :
    ∀ r i patt x, read_byte_loop byte r i patt x =
      if i ≤ x ∧ x < i + r then
        (if byte.getD x 0 % 256 = 0x20 ∨ byte.getD x 0 % 256 = 0x21 then
          ((0x6B00 ||| (byte.getD x 0 % 256) : Nat) : Int)
        else ((byte.getD x 0 % 256 : Nat) : Int))
      else patt x := by
  intro r
  induction r with
  | zero =>
    intro i patt x
    have h2 : ¬ (i ≤ x ∧ x < i + 0) := by omega
    simp only [read_byte_loop, h2, if_false]
  | succ r ih =>
    intro i patt x
    simp only [read_byte_loop]
    rw [ih]
    by_cases hx : x = i
    · subst hx
      have h1 : ¬ (x + 1 ≤ x ∧ x < x + 1 + r) := by omega
      have h2 : x ≤ x ∧ x < x + (r + 1) := by omega
      simp only [h1, h2, and_self, if_true, if_false, Function.update_same]
    · rw [Function.update_noteq hx]
      by_cases hr : i + 1 ≤ x ∧ x < i + 1 + r
      · have h2 : i ≤ x ∧ x < i + (r + 1) := by omega
        simp only [hr, h2, and_self, if_true]
      · have h2 : ¬ (i ≤ x ∧ x < i + (r + 1)) := by omega
        simp only [hr, h2, if_false]

theorem read_byte_ok (patt : Nat → Int) (n : Nat) (rd : Fread Nat) (hn : 1 ≤ n)
    (hm1 : 1 ≤ rd.items.length) (hm2 : rd.items.length ≤ n) :
    (read_byte patt n rd).1 = (rd.items.length : Int) ∧
    (read_byte patt n rd).2 = read_byte_loop rd.items rd.items.length 0 patt := by
  have hn0 : n ≠ 0 := by omega
  have htake : rd.items.take n = rd.items := List.take_of_length_le hm2
  by_cases hlt : rd.items.length < n
  · have h0 : ¬ rd.items.length ≤ 0 := by omega
    simp only [read_byte, hn0, if_false, htake, hlt, if_true, h0, and_self]
  · have heq : rd.items.length = n := by omega
    simp [read_byte, hn0, htake, heq]

/-! ## Lemmas on `check_eid_format` -/

theorem fread_short_lt (lsb_first : Bool) (word0 : Nat) (F : FILE) :
    (fread_short lsb_first word0 F).1 < 65536 := by
  unfold fread_short
  split
  · cases lsb_first <;> simp <;> omega
  · simp only; omega

theorem swap_bytes_eq (w : Nat) (hw : w < 65536) :
    (((w >>> 8) &&& 0xFF) ||| (w <<< 8)) % 65536 = (w % 256) * 256 + w / 256 := by
  have h255 : (0xFF : Nat) = 2 ^ 8 - 1 := by norm_num
  have hlt : w / 2 ^ 8 % 2 ^ 8 < 2 ^ 8 := Nat.mod_lt _ (by norm_num)
  rw [Nat.shiftRight_eq_div_pow, Nat.shiftLeft_eq, h255, Nat.and_pow_two_sub_one_eq_mod,
    Nat.or_comm, Nat.mul_comm w (2 ^ 8), ← Nat.mul_add_lt_is_or hlt w]
  have e : (2 : Nat) ^ 8 = 256 := by norm_num
  rw [e]
  have h1 : w / 256 % 256 = w / 256 := Nat.mod_eq_of_lt (by omega)
  have h2 : 256 * w + w / 256 = 65536 * (w / 256) + (w % 256 * 256 + w / 256) := by omega
  rw [h1, h2, Nat.mul_add_mod]
  exact Nat.mod_eq_of_lt (by omega)

set_option maxRecDepth 8192 in
theorem high_nibble_byte : ∀ v, v < 256 → (v &&& 0xF0 = 0x20 ↔ v / 16 = 2) := by
  decide

theorem high_nibble_eq (v : Nat) (hv : v < 65536) :
    ((v >>> 8) &&& 0xF0) = 0x20 ↔ v / 4096 = 2 := by
  have e : (2 : Nat) ^ 8 = 256 := by norm_num
  rw [Nat.shiftRight_eq_div_pow, e, high_nibble_byte (v / 256) (by omega)]
  omega

theorem eid_switch_none (h : SoftbitH) (w : Nat) :
    eid_switch h w = none ↔ (w = 0x7F00 ∨ w = 0x8100 ∨ w = 0x216B ∨ w = 0x206B) := by
  unfold eid_switch
  split_ifs with h1 h2 h3 h4 h5
  · simp only [reduceCtorEq, false_iff]; omega
  · simp only [reduceCtorEq, false_iff]; omega
  · simp only [reduceCtorEq, false_iff]; omega
  · simp only [reduceCtorEq, false_iff]; omega
  · simp only [true_iff]; exact h5
  · simp only [reduceCtorEq, false_iff]; exact h5

theorem eid_switch_default (h : SoftbitH) (w : Nat)
    (hw : w ∉ [0x7F7F, 0x7F81, 0x8181, 0x817F, 0x2020, 0x2021, 0x2120, 0x2121,
      0x007F, 0x0081, 0x6B21, 0x6B20, 0x7F00, 0x8100, 0x216B, 0x206B]) :
    eid_switch h w = some (h.nil, h.compact) := by
  simp only [List.mem_cons, List.mem_singleton, List.not_mem_nil, or_false, not_or] at hw
  unfold eid_switch
  split_ifs with h1 h2 h3 h4 h5
  · omega
  · omega
  · omega
  · omega
  · omega
  · rfl

theorem eid_switch_some (h : SoftbitH) (w : Nat) (type ret_val : Int)
    (hs : eid_switch h w = some (type, ret_val)) :
    type = h.BER ∨ type = h.FER ∨ (type = h.nil ∧ ret_val = h.compact) := by
  unfold eid_switch at hs
  split_ifs at hs <;> simp only [Option.some.injEq, Prod.mk.injEq, reduceCtorEq] at hs
  · exact Or.inl hs.1.symm
  · exact Or.inr (Or.inl hs.1.symm)
  · exact Or.inl hs.1.symm
  · exact Or.inr (Or.inl hs.1.symm)
  · exact Or.inr (Or.inr ⟨hs.1.symm, hs.2.symm⟩)

theorem eid_switch_table (h : SoftbitH) (w : Nat) :
    (w ∈ [0x7F7F, 0x7F81, 0x8181, 0x817F] → eid_switch h w = some (h.BER, h.byte)) ∧
    (w ∈ [0x2020, 0x2021, 0x2120, 0x2121] → eid_switch h w = some (h.FER, h.byte)) ∧
    (w ∈ [0x007F, 0x0081] → eid_switch h w = some (h.BER, h.g192)) ∧
    (w ∈ [0x6B21, 0x6B20] → eid_switch h w = some (h.FER, h.g192)) := by
  refine ⟨fun hm => ?_, fun hm => ?_, fun hm => ?_, fun hm => ?_⟩ <;>
    simp only [List.mem_cons, List.mem_singleton, List.not_mem_nil, or_false] at hm
  · rcases hm with e | e | e | e <;> simp [eid_switch, e]
  · rcases hm with e | e | e | e <;> simp [eid_switch, e]
  · rcases hm with e | e <;> simp [eid_switch, e]
  · rcases hm with e | e <;> simp [eid_switch, e]

theorem check_eid_format_of_switch (h : SoftbitH) (host : Host) (word0 : Nat)
    (F : FILE) (type ret_val : Int)
    (hs : eid_switch h (fread_short host.lsb_first word0 F).1 = some (type, ret_val)) :
    (type ≠ h.nil → (check_eid_format h host word0 F).classification
      = some (ret_val, type)) ∧
    (type = h.nil →
      ((if endian_probe host then
          (fread_short host.lsb_first word0 F).1 % 256 * 256
            + (fread_short host.lsb_first word0 F).1 / 256
        else (fread_short host.lsb_first word0 F).1) / 256 / 16 = 2 →
        (check_eid_format h host word0 F).classification = some (h.byte, h.FER)) ∧
      ((if endian_probe host then
          (fread_short host.lsb_first word0 F).1 % 256 * 256
            + (fread_short host.lsb_first word0 F).1 / 256
        else (fread_short host.lsb_first word0 F).1) / 256 / 16 ≠ 2 →
        (check_eid_format h host word0 F).classification
          = some (ret_val, type))) := by
  have hlt := fread_short_lt host.lsb_first word0 F
  have hsw := swap_bytes_eq _ hlt
  constructor
  · intro hne
    simp only [check_eid_format, hs, hne, false_and, if_false, Detected.classification]
  · intro heq
    have hcond : ((((if endian_probe host then
          (((fread_short host.lsb_first word0 F).1 >>> 8) &&& 0xFF
            ||| (fread_short host.lsb_first word0 F).1 <<< 8) % 65536
        else (fread_short host.lsb_first word0 F).1) >>> 8) &&& 0xF0) = 0x20) ↔
        ((if endian_probe host then
          (fread_short host.lsb_first word0 F).1 % 256 * 256
            + (fread_short host.lsb_first word0 F).1 / 256
        else (fread_short host.lsb_first word0 F).1) / 256 / 16 = 2) := by
      cases hp : endian_probe host with
      | true =>
        simp only [if_true]
        rw [hsw, high_nibble_eq _ (by omega)]
        omega
      | false =>
        simp only [Bool.false_eq_true, if_false]
        rw [high_nibble_eq _ hlt]
        omega
    constructor
    · intro hn
      have hc := hcond.2 hn
      simp only [check_eid_format, hs, heq, true_and]
      rw [if_pos hc]
      rfl
    · intro hn
      have hc : ¬ _ := fun hc => hn (hcond.1 hc)
      simp only [check_eid_format, hs, heq, true_and]
      rw [if_neg hc]
      simp only [Detected.classification, heq]

/-- The fallback of the detector in terms of its probe: when the first word `w`
is none of the sixteen tabulated values, `check_eid_format` returns
(byte, FER) if the top nibble of the high byte of `w'` is 2, where `w'` is `w`
with its two bytes swapped when the probe is non-zero and `w` itself when it is
zero, and (compact, nil) otherwise. Hence, `nil` being neither `BER` nor `FER`,
whenever the class returned is `nil` the format returned is compact. -/
theorem check_eid_format_fallback_probe (h : SoftbitH) (host : Host) (word0 : Nat)
    (F : FILE) :
    ((fread_short host.lsb_first word0 F).1 ∉
        [0x7F7F, 0x7F81, 0x8181, 0x817F, 0x2020, 0x2021, 0x2120, 0x2121,
          0x007F, 0x0081, 0x6B21, 0x6B20, 0x7F00, 0x8100, 0x216B, 0x206B] →
      ((if endian_probe host then
          (fread_short host.lsb_first word0 F).1 % 256 * 256
            + (fread_short host.lsb_first word0 F).1 / 256
        else (fread_short host.lsb_first word0 F).1) / 256 / 16 = 2 →
        (check_eid_format h host word0 F).classification
          = some (h.byte, h.FER)) ∧
      ((if endian_probe host then
          (fread_short host.lsb_first word0 F).1 % 256 * 256
            + (fread_short host.lsb_first word0 F).1 / 256
        else (fread_short host.lsb_first word0 F).1) / 256 / 16 ≠ 2 →
        (check_eid_format h host word0 F).classification
          = some (h.compact, h.nil))) ∧
    (h.nil ≠ h.BER → h.nil ≠ h.FER → ∀ ret_val type,
      (check_eid_format h host word0 F).classification = some (ret_val, type) →
      type = h.nil → ret_val = h.compact) := by
  constructor
  · intro hw
    exact (check_eid_format_of_switch h host word0 F _ _
      (eid_switch_default h _ hw)).2 rfl
  · intro hB hF ret_val type hc ht
    cases hs : eid_switch h (fread_short host.lsb_first word0 F).1 with
    | none =>
      simp [check_eid_format, hs, Detected.classification] at hc
    | some tr =>
      obtain ⟨t, r⟩ := tr
      have hsp := check_eid_format_of_switch h host word0 F t r hs
      by_cases htn : t = h.nil
      · by_cases hnib : (if endian_probe host then
            (fread_short host.lsb_first word0 F).1 % 256 * 256
              + (fread_short host.lsb_first word0 F).1 / 256
          else (fread_short host.lsb_first word0 F).1) / 256 / 16 = 2
        · rw [(hsp.2 htn).1 hnib] at hc
          simp only [Option.some.injEq, Prod.mk.injEq] at hc
          exact absurd (hc.2.trans ht).symm hF
        · rw [(hsp.2 htn).2 hnib] at hc
          simp only [Option.some.injEq, Prod.mk.injEq] at hc
          rcases eid_switch_some h _ t r hs with hb | hf | hcn
          · exact absurd (htn.symm.trans hb) hB
          · exact absurd (htn.symm.trans hf) hF
          · rw [← hc.1]; exact hcn.2
      · rw [hsp.1 htn] at hc
        simp only [Option.some.injEq, Prod.mk.injEq] at hc
        exact absurd (hc.2.trans ht) htn

/-- On a host that is little-endian or whose `unsigned long` has 4 bytes the
probe gives the byte order of the host. -/
theorem endian_probe_eq (host : Host)
    (hhost : host.sizeof_long = 4 ∨ host.lsb_first = true) :
    endian_probe host = host.lsb_first := by
  obtain ⟨l, sz⟩ := host
  simp only at hhost
  rcases hhost with h4 | hl
  · subst h4
    cases l <;> decide
  · subst hl
    cases sz with
    | zero => decide
    | succ sz => simp [endian_probe, tmp_bytes, List.range_succ_eq_map]

/-! ## Lemmas on `soft2hard` -/

/-- A loop that stores `b` through `*hard++` when the softbit gives `some b`
and counts it otherwise ends with the values of the accepted softbits, in
order, from `hp` on, and has counted the others. -/
theorem soft2hard_loop_closed (f : Int → Option Int) (soft : Nat → Int)
    (L : Nat → Nat → Nat → (Nat → Int) → Nat → Nat × Nat × (Nat → Int))
    (h0 : ∀ i hp hard u, L 0 i hp hard u = (u, hp, hard))
    (hs : ∀ r i hp hard u, L (r + 1) i hp hard u =
      match f (soft i) with
      | some b => L r (i + 1) (hp + 1) (Function.update hard hp b) u
      | none => L r (i + 1) hp hard (u + 1)) :
    ∀ r i hp hard u, L r i hp hard u =
      (u + (r - ((List.range' i r).filterMap (fun j => f (soft j))).length),
        hp + ((List.range' i r).filterMap (fun j => f (soft j))).length,
        fun j =>
          if hp ≤ j ∧ j < hp + ((List.range' i r).filterMap (fun j => f (soft j))).length
          then ((List.range' i r).filterMap (fun j => f (soft j))).getD (j - hp) 0
          else hard j) := by
  intro r
  induction r with
  | zero =>
    intro i hp hard u
    rw [h0]
    simp only [List.range'_zero, List.filterMap_nil, List.length_nil, Nat.sub_zero,
      Nat.add_zero, Prod.mk.injEq, true_and]
    funext j
    have h2 : ¬ (hp ≤ j ∧ j < hp) := by omega
    simp only [h2, if_false]
  | succ r ih =>
    intro i hp hard u
    have hle := List.length_filterMap_le (fun j => f (soft j)) (List.range' (i + 1) r)
    simp only [List.length_range'] at hle
    rw [hs, List.range'_succ, List.filterMap_cons]
    cases hf : f (soft i) with
    | none =>
      simp only
      rw [ih]
      simp only [Prod.mk.injEq, and_true]
      omega
    | some b =>
      simp only
      rw [ih]
      simp only [List.length_cons, Prod.mk.injEq]
      refine ⟨by omega, by omega, ?_⟩
      funext j
      by_cases hj : j = hp
      · subst hj
        have h1 : ¬ (j + 1 ≤ j ∧ j < j + 1 +
            ((List.range' (i + 1) r).filterMap (fun j => f (soft j))).length) := by omega
        have h2 : j ≤ j ∧ j < j +
            (((List.range' (i + 1) r).filterMap (fun j => f (soft j))).length + 1) := by omega
        simp only [h1, h2, and_self, if_true, if_false, Function.update_same, Nat.sub_self,
          List.getD_cons_zero]
      · rw [Function.update_noteq hj]
        by_cases hr : hp + 1 ≤ j ∧ j < hp + 1 +
            ((List.range' (i + 1) r).filterMap (fun j => f (soft j))).length
        · have h2 : hp ≤ j ∧ j < hp +
              (((List.range' (i + 1) r).filterMap (fun j => f (soft j))).length + 1) := by omega
          have h3 : j - hp = (j - (hp + 1)) + 1 := by omega
          simp only [hr, h2, and_self, if_true, h3, List.getD_cons_succ]
        · have h2 : ¬ (hp ≤ j ∧ j < hp +
              (((List.range' (i + 1) r).filterMap (fun j => f (soft j))).length + 1)) := by omega
          simp only [hr, h2, if_false]

theorem soft2hard_ber_step (soft : Nat → Int) (r i hp : Nat) (hard : Nat → Int) (u : Nat) :
    soft2hard_ber soft (r + 1) i hp hard u =
      match hard_of_ber (soft i) with
      | some b => soft2hard_ber soft r (i + 1) (hp + 1) (Function.update hard hp b) u
      | none => soft2hard_ber soft r (i + 1) hp hard (u + 1) := by
  simp only [soft2hard_ber, hard_of_ber]
  split_ifs <;> rfl

theorem soft2hard_fer_step (soft : Nat → Int) (r i hp : Nat) (hard : Nat → Int) (u : Nat) :
    soft2hard_fer soft (r + 1) i hp hard u =
      match hard_of_fer (soft i) with
      | some b => soft2hard_fer soft r (i + 1) (hp + 1) (Function.update hard hp b) u
      | none => soft2hard_fer soft r (i + 1) hp hard (u + 1) := by
  simp only [soft2hard_fer, hard_of_fer]
  split_ifs <;> rfl

/-- The result of `soft2hard` under class `type`, with `f` the tests of that
class: the count of the softbits that `f` rejects, and the values of the
accepted ones stored in order from the start of `hard`. -/
theorem soft2hard_closed (h : SoftbitH) (soft hard : Nat → Int) (n : Nat) (type : Int)
    (f : Int → Option Int)
    (hf : (type = h.BER ∧ f = hard_of_ber) ∨ (type = h.FER ∧ f = hard_of_fer)) :
    soft2hard h soft hard n type =
      (n - ((List.range n).filterMap (fun j => f (soft j))).length,
        fun j =>
          if j < ((List.range n).filterMap (fun j => f (soft j))).length
          then ((List.range n).filterMap (fun j => f (soft j))).getD j 0
          else hard j) := by
  rcases hf with ⟨ht, hf⟩ | ⟨ht, hf⟩
  · subst hf
    have hc := soft2hard_loop_closed hard_of_ber soft (soft2hard_ber soft)
      (fun _ _ _ _ => rfl) (soft2hard_ber_step soft) n 0 0 hard 0
    simp only [soft2hard, ht, if_true, hc, List.range_eq_range']
    simp
  · subst hf
    have hne : h.FER ≠ h.BER := fun e => h.BER_ne_FER e.symm
    have hc := soft2hard_loop_closed hard_of_fer soft (soft2hard_fer soft)
      (fun _ _ _ _ => rfl) (soft2hard_fer_step soft) n 0 0 hard 0
    simp only [soft2hard, ht, hne, if_true, if_false, hc, List.range_eq_range']
    simp


theorem soft2hard_count_none (h : SoftbitH) (soft hard : Nat → Int) (n : Nat) (type : Int)
    (f : Int → Option Int)
    (hf : (type = h.BER ∧ f = hard_of_ber) ∨ (type = h.FER ∧ f = hard_of_fer)) :
    (soft2hard h soft hard n type).1 =
      (List.range n).countP (fun j => (f (soft j)).isNone) := by
  rw [soft2hard_closed h soft hard n type f hf]
  simp only
  rw [List.length_filterMap_eq_countP]
  have hsum := List.length_eq_countP_add_countP (p := fun j => (f (soft j)).isSome)
    (List.range n)
  rw [List.length_range] at hsum
  have hcongr : (List.range n).countP (fun j => decide ¬ (f (soft j)).isSome = true)
      = (List.range n).countP (fun j => (f (soft j)).isNone) := by
    apply List.countP_congr
    intro x _
    cases f (soft x) <;> simp
  omega

theorem fer_shift_test (v : Int) (hlo : -32768 ≤ v) (hhi : v ≤ 32767) :
    v >>> (4 : Nat) = 0x06B2 ↔ v % 65536 / 16 = 0x06B2 := by
  rw [Int.shiftRight_eq_div_pow]
  have e : (((2 ^ 4 : Nat)) : Int) = 16 := by norm_num
  rw [e]
  omega

theorem hard_of_ber_none (v : Int) :
    hard_of_ber v = none ↔ (v ≠ 0x0081 ∧ v ≠ 0x007F) := by
  unfold hard_of_ber G192_ONE G192_ZERO
  by_cases h1 : v = 0x0081
  · simp [h1]
  · by_cases h2 : v = 0x007F
    · simp [h2]
    · simp [h1, h2]

theorem hard_of_ber_some (v : Int) (hv : v = 0x0081 ∨ v = 0x007F) :
    hard_of_ber v = some (if v = 0x0081 then 1 else 0) := by
  unfold hard_of_ber G192_ONE G192_ZERO
  rcases hv with hv | hv <;> simp [hv]

theorem hard_of_fer_none (v : Int) (hlo : -32768 ≤ v) (hhi : v ≤ 32767) :
    hard_of_fer v = none ↔ (v ≠ 0x6B20 ∧ v % 65536 / 16 ≠ 0x06B2) := by
  unfold hard_of_fer G192_FER
  simp only [fer_shift_test v hlo hhi]
  by_cases h1 : v = 0x6B20
  · simp [h1]
  · by_cases h2 : v % 65536 / 16 = 0x06B2
    · simp [h1, h2]
    · simp [h1, h2]

theorem hard_of_fer_some (v : Int) (hlo : -32768 ≤ v) (hhi : v ≤ 32767)
    (hv : v = 0x6B20 ∨ v % 65536 / 16 = 0x06B2) :
    hard_of_fer v = some (if v = 0x6B20 then 1 else 0) := by
  unfold hard_of_fer G192_FER
  simp only [fer_shift_test v hlo hhi]
  by_cases h1 : v = 0x6B20
  · simp [h1]
  · rcases hv with hv | hv
    · exact absurd hv h1
    · simp [h1, hv]

/-- When the tests accept every one of the first `n` softbits, nothing is
counted and slot `i` holds the value of softbit `i`. -/
theorem soft2hard_all_some (h : SoftbitH) (soft hard : Nat → Int) (n : Nat) (type : Int)
    (f : Int → Option Int) (g : Int → Int)
    (hf : (type = h.BER ∧ f = hard_of_ber) ∨ (type = h.FER ∧ f = hard_of_fer))
    (hall : ∀ i, i < n → f (soft i) = some (g (soft i))) :
    (soft2hard h soft hard n type).1 = 0 ∧
    ∀ i, i < n → (soft2hard h soft hard n type).2 i = g (soft i) := by
  have hmap : (List.range n).filterMap (fun j => f (soft j))
      = (List.range n).map (fun j => g (soft j)) := by
    rw [← List.filterMap_eq_map]
    apply List.filterMap_congr
    intro x hx
    exact hall x (List.mem_range.1 hx)
  rw [soft2hard_closed h soft hard n type f hf, hmap]
  simp only [List.length_map, List.length_range, Nat.sub_self, true_and]
  intro i hi
  simp only [hi, if_true]
  rw [List.getD_eq_getElem _ _ (by simp [hi])]
  simp

/-- A softbit that the tests reject causes no store and is counted once, and
the slots from `n - unexpected` on are left as they were. -/
theorem soft2hard_none_step (h : SoftbitH) (soft hard : Nat → Int) (n : Nat) (type : Int)
    (f : Int → Option Int)
    (hf : (type = h.BER ∧ f = hard_of_ber) ∨ (type = h.FER ∧ f = hard_of_fer)) :
    (∀ i, f (soft i) = none →
      (soft2hard h soft hard (i + 1) type).2 = (soft2hard h soft hard i type).2 ∧
      (soft2hard h soft hard (i + 1) type).1 = (soft2hard h soft hard i type).1 + 1) ∧
    (∀ j, n - (soft2hard h soft hard n type).1 ≤ j →
      (soft2hard h soft hard n type).2 j = hard j) := by
  constructor
  · intro i hnone
    have hle := List.length_filterMap_le (fun j => f (soft j)) (List.range i)
    rw [List.length_range] at hle
    have hvs : (List.range (i + 1)).filterMap (fun j => f (soft j))
        = (List.range i).filterMap (fun j => f (soft j)) := by
      rw [List.range_succ, List.filterMap_append]
      simp [hnone]
    rw [soft2hard_closed h soft hard (i + 1) type f hf,
      soft2hard_closed h soft hard i type f hf, hvs]
    exact ⟨rfl, by simp only; omega⟩
  · intro j hj
    have hle := List.length_filterMap_le (fun j => f (soft j)) (List.range n)
    rw [List.length_range] at hle
    rw [soft2hard_closed h soft hard n type f hf] at hj ⊢
    simp only at hj ⊢
    have h2 : ¬ j < ((List.range n).filterMap (fun j => f (soft j))).length := by omega
    simp only [h2, if_false]

/-! ## Lemmas on the reads of `save_bit` and on the stream -/

/-- The loop that lists the reads goes through the same values of `p` and `i`
as the inner loop of `save_bit`. -/
theorem save_bit_inner_reads_state (patt : Nat → Int) (one : Int) (n : Nat) :
    ∀ fuel k p i reads tmp,
      (save_bit_inner_reads n fuel k p i reads).1 = (save_bit_inner patt one n fuel k p i tmp).1 ∧
      (save_bit_inner_reads n fuel k p i reads).2.1
        = (save_bit_inner patt one n fuel k p i tmp).2.1 := by
  intro fuel
  induction fuel with
  | zero => intro k p i reads tmp; exact ⟨rfl, rfl⟩
  | succ fuel ih =>
    intro k p i reads tmp
    by_cases hc : k < 8 ∧ i < n
    · simp only [save_bit_inner_reads, save_bit_inner, hc, and_self, if_true]
      exact ih _ _ _ _ _
    · simp only [save_bit_inner_reads, save_bit_inner, hc, if_false, and_self]

theorem fread_short_bytes (lsb_first : Bool) (word0 : Nat) (F : FILE) :
    (fread_short lsb_first word0 F).2.bytes = F.bytes := by
  unfold fread_short
  split <;> rfl

theorem check_eid_format_ret (h : SoftbitH) (host : Host) (word0 : Nat)
    (F : FILE) (ret_val type : Int) (F1 : FILE)
    (hr : check_eid_format h host word0 F = Detected.ret ret_val type F1) :
    F1 = ⟨F.bytes, 0⟩ := by
  have hb := fread_short_bytes host.lsb_first word0 F
  cases hs : eid_switch h (fread_short host.lsb_first word0 F).1 with
  | none =>
    simp only [check_eid_format, hs] at hr
    exact Detected.noConfusion hr
  | some tr =>
    simp only [check_eid_format, hs] at hr
    split_ifs at hr <;>
      · simp only [Detected.ret.injEq] at hr
        rw [← hr.2.2, fseek_set, hb]

theorem save_bit_inner_reads_mono (n : Nat) :
    ∀ fuel k p i reads x, x ∈ reads → x ∈ (save_bit_inner_reads n fuel k p i reads).2.2 := by
  intro fuel
  induction fuel with
  | zero => intro k p i reads x hx; exact hx
  | succ fuel ih =>
    intro k p i reads x hx
    by_cases hc : k < 8 ∧ i < n
    · simp only [save_bit_inner_reads, hc, and_self, if_true]
      exact ih _ _ _ _ x (List.mem_append_left _ hx)
    · simp only [save_bit_inner_reads, hc, if_false]
      exact hx

theorem save_bit_outer_reads_mono (n : Nat) :
    ∀ r p i reads x, x ∈ reads → x ∈ save_bit_outer_reads n r p i reads := by
  intro r
  induction r with
  | zero => intro p i reads x hx; exact hx
  | succ r ih =>
    intro p i reads x hx
    simp only [save_bit_outer_reads]
    exact ih _ _ _ x (save_bit_inner_reads_mono n 7 1 (p + 1) i _ x
      (List.mem_append_left _ hx))

/-- The inner loop reads `p + d` as long as the counter allows: `i + d < n`. -/
theorem save_bit_inner_reads_mem (n : Nat) :
    ∀ fuel k p i reads d, d < fuel → k + d < 8 → i + d < n →
      (p + d) ∈ (save_bit_inner_reads n fuel k p i reads).2.2 := by
  intro fuel
  induction fuel with
  | zero => intro k p i reads d hd; omega
  | succ fuel ih =>
    intro k p i reads d hd hk hi
    have hc : k < 8 ∧ i < n := ⟨by omega, by omega⟩
    simp only [save_bit_inner_reads, hc, and_self, if_true]
    cases d with
    | zero =>
      exact save_bit_inner_reads_mono n fuel (k + 1) (p + 1) (i + 1) _ p (by simp)
    | succ d =>
      have := ih (k + 1) (p + 1) (i + 1) (reads ++ [p]) d (by omega) (by omega) (by omega)
      have e : p + 1 + d = p + (d + 1) := by omega
      rw [e] at this
      exact this

/-- Whenever `n` is not a multiple of 8, `save_bit` reads the element of index
`n`, the first one after the pattern. -/
theorem save_bit_outer_reads_n (n : Nat) (hn : n % 8 ≠ 0) :
    ∀ r j reads, 1 ≤ r → j + r = nbytes_of n →
      n ∈ save_bit_outer_reads n r (8 * j) (7 * j) reads := by
  intro r
  induction r with
  | zero => intro j reads hr; omega
  | succ r ih =>
    intro j reads _ hj
    simp only [save_bit_outer_reads]
    by_cases hr : r = 0
    · subst hr
      simp only [save_bit_outer_reads]
      have hmem := save_bit_inner_reads_mem n 7 1 (8 * j + 1) (7 * j) (reads ++ [8 * j])
        (n % 8 - 1) (by omega) (by omega) (by unfold nbytes_of at hj; omega)
      have e : 8 * j + 1 + (n % 8 - 1) = n := by unfold nbytes_of at hj; omega
      rw [e] at hmem
      exact hmem
    · have hfull : 7 * j + 7 ≤ n := by unfold nbytes_of at hj; omega
      have hst := save_bit_inner_reads_state (fun _ => 0) 0 n 7 1 (8 * j + 1) (7 * j)
        (reads ++ [8 * j]) 0
      have hsp := (save_bit_inner_spec (fun _ => 0) 0 n 7 1 (8 * j + 1) (7 * j) 0
        (by omega) (by norm_num)).2 hfull
      rw [hst.1, hst.2, hsp.1, hsp.2]
      have e1 : 8 * j + 1 + 7 = 8 * (j + 1) := by omega
      have e2 : 7 * j + 7 = 7 * (j + 1) := by omega
      rw [e1, e2]
      exact ih (j + 1) _ (by omega) (by omega)

theorem save_bit_reads_n (n : Nat) (hn : n % 8 ≠ 0) : n ∈ save_bit_reads n := by
  have hn0 : n ≠ 0 := by omega
  have h := save_bit_outer_reads_n n hn (nbytes_of n) 0 [0]
    (by unfold nbytes_of; omega) (by omega)
  simpa [save_bit_reads, hn0] using h

/-! ## Lemmas on the stores of `read_bit` and on compaction -/

/-- The loop that lists the stores goes through the same values of `p` and
`bitno` as the inner loop of `read_bit`. -/
theorem read_bit_inner_stores_state (b n : Nat) :
    ∀ fuel k p bitno stores patt,
      (read_bit_inner_stores n fuel k p bitno stores).1
        = (read_bit_inner b n fuel k p bitno patt).1 ∧
      (read_bit_inner_stores n fuel k p bitno stores).2.1
        = (read_bit_inner b n fuel k p bitno patt).2.1 := by
  intro fuel
  induction fuel with
  | zero => intro k p bitno stores patt; exact ⟨rfl, rfl⟩
  | succ fuel ih =>
    intro k p bitno stores patt
    by_cases hc : k < 8 ∧ bitno < n
    · simp only [read_bit_inner_stores, read_bit_inner, hc, and_self, if_true]
      exact ih _ _ _ _ _
    · simp only [read_bit_inner_stores, read_bit_inner, hc, if_false, and_self]

/-- The inner loop stores into consecutive elements, from `p` on, one per
iteration. -/
theorem read_bit_inner_stores_spec (n : Nat) :
    ∀ fuel k p stores, k + fuel = 8 →
      read_bit_inner_stores n fuel k p p stores =
        (p + min fuel (n - p), p + min fuel (n - p),
          stores ++ List.range' p (min fuel (n - p))) := by
  intro fuel
  induction fuel with
  | zero =>
    intro k p stores _
    simp [read_bit_inner_stores]
  | succ fuel ih =>
    intro k p stores hk
    have hk7 : k < 8 := by omega
    by_cases hp : p < n
    · have hmin : min (fuel + 1) (n - p) = min fuel (n - (p + 1)) + 1 := by omega
      simp only [read_bit_inner_stores, hk7, hp, and_self, if_true]
      rw [ih (k + 1) (p + 1) (stores ++ [p]) (by omega), hmin, List.range'_succ,
        List.append_assoc]
      simp only [List.singleton_append, Prod.mk.injEq, and_true]
      omega
    · have hmin : min (fuel + 1) (n - p) = 0 := by omega
      simp only [read_bit_inner_stores, hp, and_false, if_false, hmin, Nat.add_zero,
        List.range'_zero, List.append_nil]

/-- The expansion stores into consecutive elements: from byte `j` on, the
elements `min n (8 j)` up to `min n (8 (j + len))`, each once. -/
theorem read_bit_outer_stores_spec (n : Nat) :
    ∀ (bs : List Nat) (j : Nat) (stores : List Nat),
      (bs ≠ [] → 8 * (j + bs.length) < n + 8) →
      read_bit_outer_stores n bs (min n (8 * j)) (min n (8 * j)) stores =
        stores ++ List.range' (min n (8 * j))
          (min n (8 * (j + bs.length)) - min n (8 * j)) := by
  intro bs
  induction bs with
  | nil =>
    intro j stores _
    simp [read_bit_outer_stores]
  | cons b rest ih =>
    intro j stores hlen
    have hl := hlen (by simp)
    simp only [List.length_cons] at hl
    have hj : min n (8 * j) = 8 * j := by omega
    have hin := read_bit_inner_stores_spec n 7 1 (8 * j + 1) (stores ++ [8 * j]) (by omega)
    have hmin : 8 * j + 1 + min 7 (n - (8 * j + 1)) = min n (8 * (j + 1)) := by omega
    rw [hmin] at hin
    have hrec := ih (j + 1) ((stores ++ [8 * j]) ++ List.range' (8 * j + 1)
      (min 7 (n - (8 * j + 1)))) (by intro _; omega)
    simp only [read_bit_outer_stores, hj, hin, List.length_cons]
    rw [hrec]
    have e1 : j + 1 + rest.length = j + (rest.length + 1) := by omega
    have e2 : min n (8 * (j + (rest.length + 1))) - 8 * j
        = 1 + (min 7 (n - (8 * j + 1)) +
          (min n (8 * (j + (rest.length + 1))) - min n (8 * (j + 1)))) := by omega
    have e3 : min n (8 * (j + 1)) = 8 * j + 1 + min 7 (n - (8 * j + 1)) := hmin.symm
    rw [e1, e2, List.append_assoc, List.append_assoc]
    congr 1
    generalize min n (8 * (j + (rest.length + 1))) - min n (8 * (j + 1)) = d
    have e4 : 1 + (min 7 (n - (8 * j + 1)) + d) = (d + min 7 (n - (8 * j + 1))) + 1 := by
      omega
    rw [e3, e4, List.range'_succ, ← List.range'_append_1 (8 * j + 1)]
    rfl

/-- Without a stream error the expansion of `read_bit` stores exactly into the
elements `0 .. count - 1`, in this order, where `count = min n (8 r)` is the
value returned for `r` bytes read. -/
theorem read_bit_stores_eq (n : Nat) (rd : Fread Nat) (hn : 1 ≤ n)
    (herr : rd.error = false) :
    read_bit_stores n rd = List.range (min n (8 * min rd.items.length (nbytes_of n))) := by
  have hn0 : n ≠ 0 := by omega
  have hlen : ((rd.items.take (nbytes_of n)).map (fun b => b % 256)).length
      = min rd.items.length (nbytes_of n) := by
    simp [List.length_take, Nat.min_comm]
  have hsp := read_bit_outer_stores_spec n
    ((rd.items.take (nbytes_of n)).map (fun b => b % 256)) 0 []
    (by intro _; rw [hlen]; unfold nbytes_of; omega)
  have h0 : min n (8 * 0) = 0 := by omega
  rw [h0, hlen] at hsp
  simp only [read_bit_stores, hn0, if_false, herr, Bool.false_eq_true, hsp,
    List.range_eq_range']
  simp

/-- Whatever the class code, the elements of the first `n` that lie at or
beyond the count returned by `read_bit` hold 0 after an error-free call. -/
theorem read_bit_tail_zero (h : SoftbitH) (patt : Nat → Int) (n : Nat) (rd : Fread Nat)
    (type : Int) (hn : 1 ≤ n) (herr : rd.error = false) (x : Nat)
    (hx : min n (8 * min rd.items.length (nbytes_of n)) ≤ x) (hxn : x < n) :
    (read_bit h patt n rd type).2 x = 0 := by
  have hn0 : n ≠ 0 := by omega
  have hrun := read_bit_outer_run patt n rd.items
  have hlt : ¬ x < min n (8 * min rd.items.length (nbytes_of n)) := by omega
  have hr : ¬ (0 ≤ x ∧ x < 0 + min n (8 * min rd.items.length (nbytes_of n))) := by omega
  have hval : (read_bit_outer n ((rd.items.take (nbytes_of n)).map (fun b => b % 256)) 0 0
      (fun i => if i < n then 0 else patt i)).2 x = 0 := by
    rw [hrun.2 x]
    simp only [hlt, if_false, hxn, if_true]
  simp only [read_bit, hn0, if_false, herr, Bool.false_eq_true]
  split_ifs
  · rw [read_bit_soft_spec, hrun.1]
    simp only [hr, if_false]
    exact hval
  · rw [read_bit_soft_spec, hrun.1]
    simp only [hr, if_false]
    exact hval
  · exact hval

theorem read_bit_inner_stores_mono (n : Nat) :
    ∀ fuel k p bitno stores x, x ∈ stores →
      x ∈ (read_bit_inner_stores n fuel k p bitno stores).2.2 := by
  intro fuel
  induction fuel with
  | zero => intro k p bitno stores x hx; exact hx
  | succ fuel ih =>
    intro k p bitno stores x hx
    by_cases hc : k < 8 ∧ bitno < n
    · simp only [read_bit_inner_stores, hc, and_self, if_true]
      exact ih _ _ _ _ x (List.mem_append_left _ hx)
    · simp only [read_bit_inner_stores, hc, if_false]
      exact hx

theorem read_bit_outer_stores_mono (n : Nat) :
    ∀ (bs : List Nat) (p bitno : Nat) (stores : List Nat) (x : Nat), x ∈ stores →
      x ∈ read_bit_outer_stores n bs p bitno stores := by
  intro bs
  induction bs with
  | nil => intro p bitno stores x hx; exact hx
  | cons b rest ih =>
    intro p bitno stores x hx
    simp only [read_bit_outer_stores]
    exact ih _ _ _ x (read_bit_inner_stores_mono n 7 1 (p + 1) (bitno + 1) _ x
      (List.mem_append_left _ hx))

/-- The list of stores misses no store of the inner loop of `read_bit`: an
element whose index is not listed holds after the loop what it held before,
whatever `p` and `bitno` are on entry. -/
theorem read_bit_inner_frame (b n : Nat) :
    ∀ fuel k p bitno stores patt x,
      x ∉ (read_bit_inner_stores n fuel k p bitno stores).2.2 →
      (read_bit_inner b n fuel k p bitno patt).2.2 x = patt x := by
  intro fuel
  induction fuel with
  | zero => intro k p bitno stores patt x _; rfl
  | succ fuel ih =>
    intro k p bitno stores patt x hx
    by_cases hc : k < 8 ∧ bitno < n
    · simp only [read_bit_inner_stores, hc, and_self, if_true] at hx
      simp only [read_bit_inner, hc, and_self, if_true]
      rw [ih (k + 1) (p + 1) (bitno + 1) (stores ++ [p]) _ x hx]
      have hxp : x ≠ p := by
        intro e
        apply hx
        rw [e]
        exact read_bit_inner_stores_mono n fuel (k + 1) (p + 1) (bitno + 1) _ p (by simp)
      exact Function.update_noteq hxp _ _
    · simp only [read_bit_inner, hc, if_false]

/-- The list of stores misses no store of the expansion loop of `read_bit`: an
element whose index is not listed holds after the loop what it held before. -/
theorem read_bit_outer_frame (n : Nat) :
    ∀ (bs : List Nat) (p bitno : Nat) (stores : List Nat) (patt : Nat → Int) (x : Nat),
      x ∉ read_bit_outer_stores n bs p bitno stores →
      (read_bit_outer n bs p bitno patt).2 x = patt x := by
  intro bs
  induction bs with
  | nil => intro p bitno stores patt x _; rfl
  | cons b rest ih =>
    intro p bitno stores patt x hx
    have hst := read_bit_inner_stores_state b n 7 1 (p + 1) (bitno + 1) (stores ++ [p])
      (Function.update patt p (((b &&& 0x0001 : Nat)) : Int))
    simp only [read_bit_outer_stores] at hx
    rw [hst.1, hst.2] at hx
    simp only [read_bit_outer]
    rw [ih _ _ _ _ x hx]
    have hx2 : x ∉ (read_bit_inner_stores n 7 1 (p + 1) (bitno + 1) (stores ++ [p])).2.2 :=
      fun hin => hx (read_bit_outer_stores_mono n rest _ _ _ x hin)
    rw [read_bit_inner_frame b n 7 1 (p + 1) (bitno + 1) (stores ++ [p]) _ x hx2]
    have hxp : x ≠ p := by
      intro e
      apply hx2
      rw [e]
      exact read_bit_inner_stores_mono n 7 1 (p + 1) (bitno + 1) _ p (by simp)
    exact Function.update_noteq hxp _ _

/-- After an error-free call of `read_bit`, every element whose index is not
in the list of stores holds what `memset` left there: 0 below `n`, and beyond
the pattern the value it had before the call. -/
theorem read_bit_frame (h : SoftbitH) (patt : Nat → Int) (n : Nat) (rd : Fread Nat)
    (type : Int) (hn : 1 ≤ n) (herr : rd.error = false) (x : Nat)
    (hx : x ∉ read_bit_stores n rd) :
    (read_bit h patt n rd type).2 x = if x < n then 0 else patt x := by
  have hn0 : n ≠ 0 := by omega
  have hge : min n (8 * min rd.items.length (nbytes_of n)) ≤ x := by
    rw [read_bit_stores_eq n rd hn herr, List.mem_range] at hx
    omega
  have hout : x ∉ read_bit_outer_stores n
      ((rd.items.take (nbytes_of n)).map (fun b => b % 256)) 0 0 [] := by
    simpa [read_bit_stores, hn0, herr] using hx
  have hfr := read_bit_outer_frame n ((rd.items.take (nbytes_of n)).map (fun b => b % 256))
    0 0 [] (fun i => if i < n then 0 else patt i) x hout
  have hcnt := (read_bit_outer_run patt n rd.items).1
  have hr : ¬ (0 ≤ x ∧ x < 0 + min n (8 * min rd.items.length (nbytes_of n))) := by omega
  simp only [read_bit, hn0, if_false, herr, Bool.false_eq_true]
  split_ifs
  all_goals first
    | (rw [read_bit_soft_spec, hcnt]; simp only [hr, if_false]; rw [hfr]; simp_all)
    | (rw [hfr]; simp_all)

theorem filterMap_eq_map_filter (f : Nat → Option Int) (valid : Nat → Bool)
    (bit : Nat → Int) (l : List Nat)
    (hf : ∀ x, x ∈ l → f x = if valid x = true then some (bit x) else none) :
    l.filterMap f = (l.filter valid).map bit := by
  induction l with
  | nil => rfl
  | cons a l ih =>
    have ha := hf a (List.mem_cons_self a l)
    have hl := ih (fun x hx => hf x (List.mem_cons_of_mem a hx))
    by_cases hv : valid a = true
    · rw [if_pos hv] at ha
      simp only [List.filterMap_cons, ha, List.filter_cons, hv, if_true, List.map_cons, hl]
    · rw [if_neg hv] at ha
      simp only [List.filterMap_cons, ha, List.filter_cons, hv, if_false, hl,
        Bool.false_eq_true]

theorem map_getD_range (l : List Int) (g : Nat → Int) :
    (List.range l.length).map (fun j => if j < l.length then l.getD j 0 else g j) = l := by
  apply List.ext_getElem
  · simp
  · intro i h1 h2
    have hi : i < l.length := h2
    simp only [List.getElem_map, List.getElem_range, hi, if_true]
    exact List.getD_eq_getElem _ _ hi

/-- The output of `soft2hard` is compacted: when the tests accept the softbits
marked by `valid`, with value `bit`, the first `n - unexpected` slots hold the
values of the accepted softbits, in order, and the slots after them are left
as they were. -/
theorem soft2hard_compacted (h : SoftbitH) (soft hard : Nat → Int) (n : Nat) (type : Int)
    (f : Int → Option Int) (valid : Nat → Bool) (bit : Nat → Int)
    (hf : (type = h.BER ∧ f = hard_of_ber) ∨ (type = h.FER ∧ f = hard_of_fer))
    (hv : ∀ i, i < n → f (soft i) = if valid i = true then some (bit i) else none) :
    (soft2hard h soft hard n type).1 ≤ n ∧
    (soft2hard h soft hard n type).1 = n - ((List.range n).filter valid).length ∧
    (List.range (n - (soft2hard h soft hard n type).1)).map (soft2hard h soft hard n type).2
      = ((List.range n).filter valid).map bit ∧
    ∀ j, n - (soft2hard h soft hard n type).1 ≤ j →
      (soft2hard h soft hard n type).2 j = hard j := by
  have hvs := filterMap_eq_map_filter (fun j => f (soft j)) valid bit (List.range n)
    (fun x hx => hv x (List.mem_range.1 hx))
  have hle := List.length_filterMap_le (fun j => f (soft j)) (List.range n)
  rw [List.length_range] at hle
  have hstep := (soft2hard_none_step h soft hard n type f hf).2
  refine ⟨?_, ?_, ?_, hstep⟩
  · rw [soft2hard_closed h soft hard n type f hf]
    exact Nat.sub_le _ _
  · rw [soft2hard_closed h soft hard n type f hf, hvs, List.length_map]
  · rw [soft2hard_closed h soft hard n type f hf]
    simp only
    have e : n - (n - ((List.range n).filterMap (fun j => f (soft j))).length)
        = ((List.range n).filterMap (fun j => f (soft j))).length := by omega
    rw [e, map_getD_range, hvs]

/-! ## The claims -/

/-- C1. Compact round trip: for `n ≥ 1`, a class `type` (BER or FER) and a
pattern whose first `n` softbits are all one of the two sentinels of that
class, when `save_bit` has its `nbytes = ceil (n / 8)` bytes written and
`read_bit` reads exactly those bytes without error, with count `n` and the same
class, then `read_bit` returns `n` and the buffer it fills equals the original
pattern at every position below `n`. -/
theorem compact_round_trip (h : SoftbitH) (one0 : Int) (patt patt0 : Nat → Int)
    (n w : Nat) (type : Int) (hn : 1 ≤ n) (hw : w = nbytes_of n)
    (hC : (type = h.BER ∧ ∀ i, i < n → patt i = 0x007F ∨ patt i = 0x0081) ∨
      (type = h.FER ∧ ∀ i, i < n → patt i = 0x6B21 ∨ patt i = 0x6B20)) :
    ((save_bit one0 patt n w).2).length = w ∧
    (read_bit h patt0 n ⟨(save_bit one0 patt n w).2, false⟩ type).1 = (n : Int) ∧
    ∀ i, i < n →
      (read_bit h patt0 n ⟨(save_bit one0 patt n w).2, false⟩ type).2 i = patt i := by
  have hlen := save_bit_length one0 patt n w hn
  have hok := read_bit_ok h patt0 n ⟨(save_bit one0 patt n w).2, false⟩ type hn rfl
  have hmin : min n (8 * min ((save_bit one0 patt n w).2).length (nbytes_of n)) = n := by
    rw [hlen]; unfold nbytes_of; omega
  simp only [hmin] at hok
  refine ⟨by rw [hlen, hw], hok.1, fun i hi => ?_⟩
  have hbit := save_bit_bit_at one0 patt n w i hn hi
  rcases hC with ⟨ht, hp⟩ | ⟨ht, hp⟩
  · rw [(hok.2 i hi).1 ht]
    simp only [hbit]
    have hone : save_bit_one one0 (patt 0) = 0x0081 := by
      rcases hp 0 (by omega) with h0 | h0 <;> simp [save_bit_one, h0, G192_ZERO, G192_ONE]
    rw [hone]
    rcases hp i hi with hv | hv <;> simp [hv]
  · rw [(hok.2 i hi).2 ht]
    simp only [hbit]
    have hone : save_bit_one one0 (patt 0) = 0x6B20 := by
      rcases hp 0 (by omega) with h0 | h0 <;>
        simp [save_bit_one, h0, G192_ZERO, G192_ONE, G192_SYNC, G192_FER]
    rw [hone]
    rcases hp i hi with hv | hv <;> simp [hv]

/-- Witness of C1: ten bit-error softbits, alternating error and no error,
saved and read back under the sample header. -/
theorem compact_round_trip_witness :
    ((save_bit 0 (fun i => if i % 2 = 0 then 0x0081 else 0x007F) 10 2).2).length = 2 ∧
    (read_bit sampleH (fun _ => 0) 10
      ⟨(save_bit 0 (fun i => if i % 2 = 0 then 0x0081 else 0x007F) 10 2).2, false⟩ 0).1
        = ((10 : Nat) : Int) ∧
    ∀ i, i < 10 →
      (read_bit sampleH (fun _ => 0) 10
        ⟨(save_bit 0 (fun i => if i % 2 = 0 then 0x0081 else 0x007F) 10 2).2, false⟩ 0).2 i
        = (fun i => if i % 2 = 0 then 0x0081 else 0x007F) i :=
  compact_round_trip sampleH 0 (fun i => if i % 2 = 0 then 0x0081 else 0x007F)
    (fun _ => 0) 10 2 0 (by decide) (by decide)
    (Or.inl ⟨rfl, fun i _ => by by_cases hi : i % 2 = 0 <;> simp [hi]⟩)

/-- C2. Compact read expands LSB first: for `n ≥ 1`, a read without stream
error and every position `i` below the count `read_bit` returns, the softbit
at `i` is the disturbance sentinel of the class (0x0081 for BER, 0x6B20 for
FER) when bit `i mod 8` of byte `i div 8` is 1, and the no-disturbance sentinel
(0x007F, 0x6B21) when it is 0. -/
theorem read_bit_lsb_first (h : SoftbitH) (patt : Nat → Int) (n : Nat)
    (rd : Fread Nat) (type : Int) (i : Nat) (hn : 1 ≤ n) (herr : rd.error = false)
    (hi : (i : Int) < (read_bit h patt n rd type).1) :
    (type = h.BER → (read_bit h patt n rd type).2 i =
      if (rd.items.getD (i / 8) 0).testBit (i % 8) then 0x0081 else 0x007F) ∧
    (type = h.FER → (read_bit h patt n rd type).2 i =
      if (rd.items.getD (i / 8) 0).testBit (i % 8) then 0x6B20 else 0x6B21) := by
  have hok := read_bit_ok h patt n rd type hn herr
  rw [hok.1] at hi
  exact hok.2 i (by exact_mod_cast hi)

/-- Witness of C2: byte 0x05 read with `n = 8` as bit errors gives
`[0x0081, 0x007F, 0x0081, 0x007F, 0x007F, 0x007F, 0x007F, 0x007F]`; the theorem
is applied at position 2. -/
theorem read_bit_lsb_first_witness :
    (List.range 8).map (read_bit sampleH (fun _ => 0) 8 ⟨[0x05], false⟩ 0).2
      = [0x0081, 0x007F, 0x0081, 0x007F, 0x007F, 0x007F, 0x007F, 0x007F] ∧
    (read_bit sampleH (fun _ => 0) 8 ⟨[0x05], false⟩ 0).1 = 8 ∧
    (read_bit sampleH (fun _ => 0) 8 ⟨[0x05], false⟩ 0).2 2 =
      if (([0x05] : List Nat).getD (2 / 8) 0).testBit (2 % 8) then 0x0081 else 0x007F :=
  ⟨by decide, by decide,
    (read_bit_lsb_first sampleH (fun _ => 0) 8 ⟨[0x05], false⟩ 0 2 (by decide) rfl
      (by decide)).1 rfl⟩

/-- C3. At `n = 10` the final byte of `save_bit` is not zero-padded when the
buffer holds bit-error sentinels after the tenth softbit: for the hard pattern
`[1,1,1,1,1,1,1,1,1,0]` followed in memory by 0x0081, the bytes are
`[0xFF, 0x0D]` and not `[0xFF, 0x01]`: the loop counter `i` is not advanced for
the first bit of a byte, so the guard `i < n` lets the loop read `patt[10]` and
`patt[11]` into bits 2 and 3 of the last byte. With 0x007F after the pattern
the bytes are `[0xFF, 0x01]`. -/
theorem save_bit_padding_reads_past_n :
    save_bit 0 (fun i => if i = 9 then 0x007F else 0x0081) 10 2 = (10, [0xFF, 0x0D]) ∧
    save_bit 0 (fun i => if i < 9 then 0x0081 else 0x007F) 10 2 = (10, [0xFF, 0x01]) := by
  constructor <;> decide

/-- C4. Compact write packing rule: for `n ≥ 1` and every position `i < n`,
when the first softbit is 0x007F or 0x0081, bit `i mod 8` of output byte
`i div 8` is 1 if and only if `patt[i] = 0x0081`; when the first softbit is
0x6B21 or 0x6B20, if and only if `patt[i] = 0x6B20`. Every other value packs
as 0. -/
theorem save_bit_packing (one0 : Int) (patt : Nat → Int) (n w i : Nat) (hn : 1 ≤ n)
    (hi : i < n) :
    (patt 0 = 0x007F ∨ patt 0 = 0x0081 →
      ((((save_bit one0 patt n w).2).getD (i / 8) 0).testBit (i % 8) = true ↔
        patt i = 0x0081)) ∧
    (patt 0 = 0x6B21 ∨ patt 0 = 0x6B20 →
      ((((save_bit one0 patt n w).2).getD (i / 8) 0).testBit (i % 8) = true ↔
        patt i = 0x6B20)) := by
  have hbit := save_bit_bit_at one0 patt n w i hn hi
  constructor
  · intro h0
    have hone : save_bit_one one0 (patt 0) = 0x0081 := by
      rcases h0 with h0 | h0 <;> simp [save_bit_one, h0, G192_ZERO, G192_ONE]
    rw [hbit, hone]; simp
  · intro h0
    have hone : save_bit_one one0 (patt 0) = 0x6B20 := by
      rcases h0 with h0 | h0 <;>
        simp [save_bit_one, h0, G192_ZERO, G192_ONE, G192_SYNC, G192_FER]
    rw [hbit, hone]; simp

/-- Witness of C4: position 9 of a ten-element frame-erasure pattern whose
last element is a value of the other class. -/
theorem save_bit_packing_witness :
    (1 ≤ 10 ∧ 9 < 10) ∧
    (((fun i => if i = 9 then 0x0081 else 0x6B20 : Nat → Int) 0 = 0x6B21 ∨
        (fun i => if i = 9 then 0x0081 else 0x6B20 : Nat → Int) 0 = 0x6B20) →
      ((((save_bit 0 (fun i => if i = 9 then 0x0081 else 0x6B20) 10 2).2).getD (9 / 8)
          0).testBit (9 % 8) = true ↔
        (fun i => if i = 9 then 0x0081 else 0x6B20 : Nat → Int) 9 = 0x6B20)) :=
  ⟨by decide,
    (save_bit_packing 0 (fun i => if i = 9 then 0x0081 else 0x6B20) 10 2 9 (by decide)
      (by decide)).2⟩

/-- C5. Compact read bit count: for `n ≥ 1`, when the stream reports no error
and `fread` delivers `r ≤ ceil (n / 8)` bytes, `read_bit` returns
`min n (8 r)`. -/
theorem read_bit_count (h : SoftbitH) (patt : Nat → Int) (n : Nat) (rd : Fread Nat)
    (type : Int) (hn : 1 ≤ n) (herr : rd.error = false)
    (hr : rd.items.length ≤ nbytes_of n) :
    (read_bit h patt n rd type).1 = ((min n (8 * rd.items.length) : Nat) : Int) := by
  rw [(read_bit_ok h patt n rd type hn herr).1, Nat.min_eq_left hr]

/-- Witness of C5: a short read, two bytes delivered of the three that
`n = 20` asks for, gives 16 bits. -/
theorem read_bit_count_witness :
    (1 ≤ 20 ∧ ([0xFF, 0x01] : List Nat).length ≤ nbytes_of 20) ∧
    (read_bit sampleH (fun _ => 0) 20 ⟨[0xFF, 0x01], false⟩ 1).1
      = ((min 20 (8 * ([0xFF, 0x01] : List Nat).length) : Nat) : Int) :=
  ⟨by decide, read_bit_count sampleH (fun _ => 0) 20 ⟨[0xFF, 0x01], false⟩ 1 (by decide) rfl
    (by decide)⟩

/-- C6. The byte and 16-bit forms correspond one to one on the canonical
values: the byte `save_byte` writes for each of 0x007F, 0x0081, 0x6B21, 0x6B20
is read back by `read_byte` as the same softbit, and the softbit `read_byte`
produces for each of the bytes 0x7F, 0x81, 0x21, 0x20 is written by
`save_byte` as the same byte. -/
theorem byte_word16_bijection (patt0 : Nat → Int) (w : Nat) (e : Bool) :
    ((read_byte patt0 1 ⟨(save_byte (fun _ => 0x007F) 1 w).2, e⟩).2 0 = 0x007F ∧
      (read_byte patt0 1 ⟨(save_byte (fun _ => 0x0081) 1 w).2, e⟩).2 0 = 0x0081 ∧
      (read_byte patt0 1 ⟨(save_byte (fun _ => 0x6B21) 1 w).2, e⟩).2 0 = 0x6B21 ∧
      (read_byte patt0 1 ⟨(save_byte (fun _ => 0x6B20) 1 w).2, e⟩).2 0 = 0x6B20) ∧
    ((save_byte (read_byte patt0 1 ⟨[0x7F], e⟩).2 1 w).2 = [0x7F] ∧
      (save_byte (read_byte patt0 1 ⟨[0x81], e⟩).2 1 w).2 = [0x81] ∧
      (save_byte (read_byte patt0 1 ⟨[0x21], e⟩).2 1 w).2 = [0x21] ∧
      (save_byte (read_byte patt0 1 ⟨[0x20], e⟩).2 1 w).2 = [0x20]) := by
  refine ⟨⟨?_, ?_, ?_, ?_⟩, ⟨?_, ?_, ?_, ?_⟩⟩ <;>
    simp [save_byte, read_byte, read_byte_loop, List.range_succ]

/-- C7. Byte read widening and short reads: for `n ≥ 1` and a stream that
delivers `m` bytes with `1 ≤ m ≤ n`, `read_byte` returns `m`, and for every
`i < m` element `i` of the buffer is `0x6B00 | b_i` when the byte `b_i` is
0x20 or 0x21 and the zero-extended byte, a value in `0..0xFF`, otherwise. -/
theorem read_byte_widens (patt : Nat → Int) (n : Nat) (rd : Fread Nat) (hn : 1 ≤ n)
    (hm1 : 1 ≤ rd.items.length) (hm2 : rd.items.length ≤ n)
    (hb : ∀ b, b ∈ rd.items → b < 256) :
    (read_byte patt n rd).1 = (rd.items.length : Int) ∧
    ∀ i, i < rd.items.length →
      ((rd.items.getD i 0 = 0x20 ∨ rd.items.getD i 0 = 0x21) →
        (read_byte patt n rd).2 i = ((0x6B00 ||| rd.items.getD i 0 : Nat) : Int)) ∧
      (¬ (rd.items.getD i 0 = 0x20 ∨ rd.items.getD i 0 = 0x21) →
        (read_byte patt n rd).2 i = (rd.items.getD i 0 : Int) ∧
        0 ≤ (read_byte patt n rd).2 i ∧ (read_byte patt n rd).2 i ≤ 0x00FF) := by
  have hok := read_byte_ok patt n rd hn hm1 hm2
  refine ⟨hok.1, fun i hi => ?_⟩
  have hlt : rd.items.getD i 0 < 256 := by
    rw [List.getD_eq_getElem _ _ hi]
    exact hb _ (List.getElem_mem hi)
  have hmod : rd.items.getD i 0 % 256 = rd.items.getD i 0 := Nat.mod_eq_of_lt hlt
  have hx : 0 ≤ i ∧ i < 0 + rd.items.length := by omega
  rw [hok.2, read_byte_loop_spec, hmod]
  simp only [hx, and_self, if_true]
  constructor
  · intro hc
    simp only [hc, if_true]
  · intro hc
    simp only [hc, if_false, true_and]
    omega

/-- Witness of C7: byte 0x21 read with `n = 1` gives `[0x6B21]`; byte 0x81 is
widened to 0x0081. -/
theorem read_byte_widens_witness :
    (read_byte (fun _ => 0) 1 ⟨[0x21], false⟩).1 = 1 ∧
    (read_byte (fun _ => 0) 1 ⟨[0x21], false⟩).2 0 = 0x6B21 ∧
    (read_byte (fun _ => 0) 3 ⟨[0x21, 0x81], false⟩).1 = 2 ∧
    (read_byte (fun _ => 0) 3 ⟨[0x21, 0x81], false⟩).2 1 = 0x0081 := by
  have h1 := read_byte_widens (fun _ => 0) 1 ⟨[0x21], false⟩ (by decide) (by decide)
    (by decide) (by decide)
  have h2 := read_byte_widens (fun _ => 0) 3 ⟨[0x21, 0x81], false⟩ (by decide) (by decide)
    (by decide) (by decide)
  exact ⟨h1.1, (h1.2 0 (by decide)).1 (by decide), h2.1,
    ((h2.2 1 (by decide)).2 (by decide)).1⟩

/-- C8. Detector table: whatever the host (its byte order and what its probe
finds), for each of the twelve classifying values of the first word `check_eid_format` returns the
tabulated pair: 0x7F7F, 0x7F81, 0x8181, 0x817F give (byte, BER); 0x2020,
0x2021, 0x2120, 0x2121 give (byte, FER); 0x007F, 0x0081 give (g192, BER);
0x6B21, 0x6B20 give (g192, FER). The code `nil` is assumed to differ from
`BER` and from `FER`, so the second heuristic leaves these results alone. -/
theorem check_eid_format_table (h : SoftbitH) (host : Host) (word0 : Nat)
    (F : FILE) (hB : h.nil ≠ h.BER) (hF : h.nil ≠ h.FER) :
    ((fread_short host.lsb_first word0 F).1 ∈ [0x7F7F, 0x7F81, 0x8181, 0x817F] →
      (check_eid_format h host word0 F).classification = some (h.byte, h.BER)) ∧
    ((fread_short host.lsb_first word0 F).1 ∈ [0x2020, 0x2021, 0x2120, 0x2121] →
      (check_eid_format h host word0 F).classification = some (h.byte, h.FER)) ∧
    ((fread_short host.lsb_first word0 F).1 ∈ [0x007F, 0x0081] →
      (check_eid_format h host word0 F).classification = some (h.g192, h.BER)) ∧
    ((fread_short host.lsb_first word0 F).1 ∈ [0x6B21, 0x6B20] →
      (check_eid_format h host word0 F).classification = some (h.g192, h.FER)) := by
  have ht := eid_switch_table h (fread_short host.lsb_first word0 F).1
  refine ⟨fun hm => ?_, fun hm => ?_, fun hm => ?_, fun hm => ?_⟩
  · exact (check_eid_format_of_switch h host word0 F _ _ (ht.1 hm)).1
      (fun e => hB e.symm)
  · exact (check_eid_format_of_switch h host word0 F _ _ (ht.2.1 hm)).1
      (fun e => hF e.symm)
  · exact (check_eid_format_of_switch h host word0 F _ _ (ht.2.2.1 hm)).1
      (fun e => hB e.symm)
  · exact (check_eid_format_of_switch h host word0 F _ _ (ht.2.2.2 hm)).1
      (fun e => hF e.symm)

/-- Witness of C8: under the sample header, a file that starts with the bytes
0x20 0x21 on a little-endian host (8-byte `unsigned long`) has first word
0x2120 and is classified (byte, FER), although the second heuristic's test on
the word succeeds; a file that starts with 0x00 0x81 on a big-endian host
(4-byte `unsigned long`) is classified (g192, BER). -/
theorem check_eid_format_table_witness :
    (sampleH.nil ≠ sampleH.BER ∧ sampleH.nil ≠ sampleH.FER) ∧
    ((fread_short true 0 ⟨[0x20, 0x21, 0x20], 0⟩).1 ∈ [0x2020, 0x2021, 0x2120, 0x2121] ∧
      (check_eid_format sampleH ⟨true, 8⟩ 0 ⟨[0x20, 0x21, 0x20], 0⟩).classification
        = some (sampleH.byte, sampleH.FER)) ∧
    ((fread_short false 0 ⟨[0x00, 0x81], 0⟩).1 ∈ [0x007F, 0x0081] ∧
      (check_eid_format sampleH ⟨false, 4⟩ 0 ⟨[0x00, 0x81], 0⟩).classification
        = some (sampleH.g192, sampleH.BER)) :=
  ⟨by decide,
    ⟨by decide, (check_eid_format_table sampleH ⟨true, 8⟩ 0 ⟨[0x20, 0x21, 0x20], 0⟩
      (by decide) (by decide)).2.1 (by decide)⟩,
    ⟨by decide, (check_eid_format_table sampleH ⟨false, 4⟩ 0 ⟨[0x00, 0x81], 0⟩ (by decide)
      (by decide)).2.2.1 (by decide)⟩⟩

/-- C9. The fallback of the detector swaps the word on a big-endian host whose
`unsigned long` has 8 bytes: there the first four bytes of `tmp` are zero, the
probe `strncmp ("ABCD", (char *) &tmp, 4)` is non-zero and `little_endian` is
set. A file that starts with the bytes 0x25 0x13 has first word 0x2513, not
tabulated, whose high byte has top nibble 2; the function tests the swapped
word 0x1325 and returns (compact, nil), where the same host with a 4-byte
`unsigned long` returns (byte, FER). On every host that is little-endian or
has a 4-byte `unsigned long` the probe gives the byte order of the host, and
the result for a word that is not tabulated is (byte, FER) when the word (with
its bytes swapped on a little-endian host) has top nibble 2 in its high byte,
and (compact, nil) otherwise. -/
theorem check_eid_format_probe_on_big_endian :
    endian_probe ⟨false, 8⟩ = true ∧
    (fread_short false 0 ⟨[0x25, 0x13], 0⟩).1 = 0x2513 ∧
    0x2513 / 256 / 16 = 2 ∧
    (check_eid_format sampleH ⟨false, 8⟩ 0 ⟨[0x25, 0x13], 0⟩).classification
      = some (sampleH.compact, sampleH.nil) ∧
    (check_eid_format sampleH ⟨false, 4⟩ 0 ⟨[0x25, 0x13], 0⟩).classification
      = some (sampleH.byte, sampleH.FER) ∧
    (∀ host : Host, host.sizeof_long = 4 ∨ host.lsb_first = true →
      endian_probe host = host.lsb_first) ∧
    (∀ (h : SoftbitH) (host : Host) (word0 : Nat) (F : FILE),
      host.sizeof_long = 4 ∨ host.lsb_first = true →
      (fread_short host.lsb_first word0 F).1 ∉
        [0x7F7F, 0x7F81, 0x8181, 0x817F, 0x2020, 0x2021, 0x2120, 0x2121,
          0x007F, 0x0081, 0x6B21, 0x6B20, 0x7F00, 0x8100, 0x216B, 0x206B] →
      ((if host.lsb_first then
          (fread_short host.lsb_first word0 F).1 % 256 * 256
            + (fread_short host.lsb_first word0 F).1 / 256
        else (fread_short host.lsb_first word0 F).1) / 256 / 16 = 2 →
        (check_eid_format h host word0 F).classification = some (h.byte, h.FER)) ∧
      ((if host.lsb_first then
          (fread_short host.lsb_first word0 F).1 % 256 * 256
            + (fread_short host.lsb_first word0 F).1 / 256
        else (fread_short host.lsb_first word0 F).1) / 256 / 16 ≠ 2 →
        (check_eid_format h host word0 F).classification
          = some (h.compact, h.nil))) := by
  refine ⟨by decide, by decide, by decide, by decide, by decide, endian_probe_eq, ?_⟩
  intro h host word0 F hhost hw
  have hp := endian_probe_eq host hhost
  have hf := (check_eid_format_fallback_probe h host word0 F).1 hw
  rw [hp] at hf
  exact hf

/-- C10. Detector byte-swap abort: `check_eid_format` ends the process with
`exit (8)`, returning no classification, if and only if the first word is one
of 0x7F00, 0x8100, 0x216B, 0x206B; for every other first word it returns a
classification. -/
theorem check_eid_format_exit (h : SoftbitH) (host : Host) (word0 : Nat)
    (F : FILE) :
    (check_eid_format h host word0 F = Detected.exit 8 ↔
      (fread_short host.lsb_first word0 F).1 ∈ [0x7F00, 0x8100, 0x216B, 0x206B]) ∧
    ((check_eid_format h host word0 F).classification = none ↔
      (fread_short host.lsb_first word0 F).1 ∈ [0x7F00, 0x8100, 0x216B, 0x206B]) ∧
    ((fread_short host.lsb_first word0 F).1 ∉ [0x7F00, 0x8100, 0x216B, 0x206B] →
      ∃ ret_val type F1,
        check_eid_format h host word0 F = Detected.ret ret_val type F1) := by
  have hnone := eid_switch_none h (fread_short host.lsb_first word0 F).1
  have hmem : (fread_short host.lsb_first word0 F).1 ∈ [0x7F00, 0x8100, 0x216B, 0x206B] ↔
      eid_switch h (fread_short host.lsb_first word0 F).1 = none := by
    rw [hnone]
    simp only [List.mem_cons, List.mem_singleton, List.not_mem_nil, or_false]
  cases hs : eid_switch h (fread_short host.lsb_first word0 F).1 with
  | none =>
    have hin := hmem.2 hs
    refine ⟨⟨fun _ => hin, fun _ => ?_⟩, ⟨fun _ => hin, fun _ => ?_⟩, fun hout => absurd hin hout⟩
    · simp only [check_eid_format, hs]
    · simp only [check_eid_format, hs, Detected.classification]
  | some tr =>
    have hout : (fread_short host.lsb_first word0 F).1 ∉ [0x7F00, 0x8100, 0x216B, 0x206B] := by
      intro hin
      rw [hmem.1 hin] at hs
      exact Option.noConfusion hs
    have hret : ∃ ret_val type F1,
        check_eid_format h host word0 F = Detected.ret ret_val type F1 := by
      simp only [check_eid_format, hs]
      split_ifs <;> exact ⟨_, _, _, rfl⟩
    obtain ⟨r, t, F1, hr⟩ := hret
    refine ⟨⟨fun he => ?_, fun hin => absurd hin hout⟩,
      ⟨fun he => ?_, fun hin => absurd hin hout⟩, fun _ => ⟨r, t, F1, hr⟩⟩
    · rw [hr] at he; exact Detected.noConfusion he
    · rw [hr] at he; simp [Detected.classification] at he

/-- Witness of C10: on a little-endian host a file that starts with the bytes
0x00 0x7F has first word 0x7F00 and ends the process with status 8; the same
file on a big-endian host has first word 0x007F and is classified. -/
theorem check_eid_format_exit_witness :
    check_eid_format sampleH ⟨true, 8⟩ 0 ⟨[0x00, 0x7F, 0x00, 0x81], 0⟩ = Detected.exit 8 ∧
    ∃ ret_val type F1,
      check_eid_format sampleH ⟨false, 4⟩ 0 ⟨[0x00, 0x7F, 0x00, 0x81], 0⟩
        = Detected.ret ret_val type F1 :=
  ⟨(check_eid_format_exit sampleH ⟨true, 8⟩ 0 ⟨[0x00, 0x7F, 0x00, 0x81], 0⟩).1.2
      (by decide),
    (check_eid_format_exit sampleH ⟨false, 4⟩ 0 ⟨[0x00, 0x7F, 0x00, 0x81], 0⟩).2.2
      (by decide)⟩

/-- C11, as stated, fails: on a little-endian host a call that starts at offset
2 of the file `7F 7F 81 00` reads the word 0x0081, returns (g192, BER), and
leaves the stream at offset 0, not 2. -/
theorem check_eid_format_offset_counterexample :
    check_eid_format sampleH ⟨true, 8⟩ 0 ⟨[0x7F, 0x7F, 0x81, 0x00], 2⟩
      = Detected.ret sampleH.g192 sampleH.BER ⟨[0x7F, 0x7F, 0x81, 0x00], 0⟩ ∧
    (⟨[0x7F, 0x7F, 0x81, 0x00], 0⟩ : FILE).offset
      ≠ (⟨[0x7F, 0x7F, 0x81, 0x00], 2⟩ : FILE).offset := by
  constructor <;> decide

/-- C11, amended. Whenever `check_eid_format` returns a classification, the
stream holds the same bytes and its offset is 0: the function rewinds the file
with `fseek (F, 0l, SEEK_SET)`. The offset after the call therefore equals the
offset before the call when the call starts at the beginning of the file. -/
theorem check_eid_format_rewinds (h : SoftbitH) (host : Host) (word0 : Nat)
    (F : FILE) (ret_val type : Int) (F1 : FILE)
    (hr : check_eid_format h host word0 F = Detected.ret ret_val type F1) :
    F1.offset = 0 ∧ F1.bytes = F.bytes ∧ (F.offset = 0 → F1.offset = F.offset) := by
  have hF := check_eid_format_ret h host word0 F ret_val type F1 hr
  subst hF
  exact ⟨rfl, rfl, fun h0 => h0.symm⟩

/-- Witness of C11 amended: the call of the counterexample, and the same file
read from its start. -/
theorem check_eid_format_rewinds_witness :
    ((⟨[0x7F, 0x7F, 0x81, 0x00], 0⟩ : FILE).offset = 0 ∧
      (⟨[0x7F, 0x7F, 0x81, 0x00], 0⟩ : FILE).bytes
        = (⟨[0x7F, 0x7F, 0x81, 0x00], 2⟩ : FILE).bytes ∧
      ((⟨[0x7F, 0x7F, 0x81, 0x00], 2⟩ : FILE).offset = 0 →
        (⟨[0x7F, 0x7F, 0x81, 0x00], 0⟩ : FILE).offset
          = (⟨[0x7F, 0x7F, 0x81, 0x00], 2⟩ : FILE).offset)) ∧
    ((⟨[0x7F, 0x7F, 0x81, 0x00], 0⟩ : FILE).offset = 0 ∧
      (⟨[0x7F, 0x7F, 0x81, 0x00], 0⟩ : FILE).bytes
        = (⟨[0x7F, 0x7F, 0x81, 0x00], 0⟩ : FILE).bytes ∧
      ((⟨[0x7F, 0x7F, 0x81, 0x00], 0⟩ : FILE).offset = 0 →
        (⟨[0x7F, 0x7F, 0x81, 0x00], 0⟩ : FILE).offset
          = (⟨[0x7F, 0x7F, 0x81, 0x00], 0⟩ : FILE).offset)) :=
  ⟨check_eid_format_rewinds sampleH ⟨true, 8⟩ 0 ⟨[0x7F, 0x7F, 0x81, 0x00], 2⟩ sampleH.g192
      sampleH.BER ⟨[0x7F, 0x7F, 0x81, 0x00], 0⟩ (by decide),
    check_eid_format_rewinds sampleH ⟨true, 8⟩ 0 ⟨[0x7F, 0x7F, 0x81, 0x00], 0⟩ sampleH.byte
      sampleH.BER ⟨[0x7F, 0x7F, 0x81, 0x00], 0⟩ (by decide)⟩

/-- C12. Translator correctness on valid buffers: when every one of the `n`
softbits, each a `short`, is valid for the class (`BER`: 0x007F or 0x0081;
`FER`: 0x6B20 or a value whose top 12 bits are 0x6B2), `soft2hard` returns the
count 0 and sets `hard[i]` to 1 where `soft[i]` is the disturbance sentinel of
the class (0x0081, 0x6B20) and to 0 elsewhere, for every `i < n`. -/
theorem soft2hard_valid (h : SoftbitH) (soft hard : Nat → Int) (n : Nat) (type : Int)
    (hshort : ∀ i, i < n → -32768 ≤ soft i ∧ soft i ≤ 32767)
    (hv : (type = h.BER ∧ ∀ i, i < n → soft i = 0x007F ∨ soft i = 0x0081) ∨
      (type = h.FER ∧ ∀ i, i < n → soft i = 0x6B20 ∨ soft i % 65536 / 16 = 0x06B2)) :
    (soft2hard h soft hard n type).1 = 0 ∧
    ∀ i, i < n →
      (type = h.BER → (soft2hard h soft hard n type).2 i = if soft i = 0x0081 then 1 else 0) ∧
      (type = h.FER → (soft2hard h soft hard n type).2 i = if soft i = 0x6B20 then 1 else 0) := by
  have hne : h.FER ≠ h.BER := fun e => h.BER_ne_FER e.symm
  rcases hv with ⟨ht, hp⟩ | ⟨ht, hp⟩
  · have hs := soft2hard_all_some h soft hard n type hard_of_ber
      (fun v => if v = 0x0081 then 1 else 0) (Or.inl ⟨ht, rfl⟩)
      (fun i hi => hard_of_ber_some (soft i) ((hp i hi).symm))
    refine ⟨hs.1, fun i hi => ⟨fun _ => hs.2 i hi, fun hf => ?_⟩⟩
    exact absurd (ht.symm.trans hf) h.BER_ne_FER
  · have hs := soft2hard_all_some h soft hard n type hard_of_fer
      (fun v => if v = 0x6B20 then 1 else 0) (Or.inr ⟨ht, rfl⟩)
      (fun i hi => hard_of_fer_some (soft i) (hshort i hi).1 (hshort i hi).2 (hp i hi))
    refine ⟨hs.1, fun i hi => ⟨fun hb => ?_, fun _ => hs.2 i hi⟩⟩
    exact absurd (ht.symm.trans hb) hne

/-- Witness of C12: three frame softbits, 0x6B21, 0x6B20 and 0x6B2F, all valid
for `FER`. -/
theorem soft2hard_valid_witness :
    (soft2hard sampleH (fun i => if i = 0 then 0x6B21 else if i = 1 then 0x6B20 else 0x6B2F)
      (fun _ => 5) 3 1).1 = 0 ∧
    ∀ i, i < 3 →
      ((1 : Int) = sampleH.BER →
        (soft2hard sampleH
          (fun i => if i = 0 then 0x6B21 else if i = 1 then 0x6B20 else 0x6B2F)
          (fun _ => 5) 3 1).2 i =
        if (fun i => if i = 0 then 0x6B21 else if i = 1 then 0x6B20 else 0x6B2F : Nat → Int) i
          = 0x0081 then 1 else 0) ∧
      ((1 : Int) = sampleH.FER →
        (soft2hard sampleH
          (fun i => if i = 0 then 0x6B21 else if i = 1 then 0x6B20 else 0x6B2F)
          (fun _ => 5) 3 1).2 i =
        if (fun i => if i = 0 then 0x6B21 else if i = 1 then 0x6B20 else 0x6B2F : Nat → Int) i
          = 0x6B20 then 1 else 0) :=
  soft2hard_valid sampleH (fun i => if i = 0 then 0x6B21 else if i = 1 then 0x6B20 else 0x6B2F)
    (fun _ => 5) 3 1
    (fun i _ => by
      by_cases h0 : i = 0
      · simp [h0]
      · by_cases h1 : i = 1 <;> simp [h0, h1])
    (Or.inr ⟨rfl, fun i _ => by
      by_cases h0 : i = 0
      · simp [h0]
      · by_cases h1 : i = 1 <;> simp [h0, h1]⟩)

/-- C13. Translator anomaly count: for every buffer of `n` shorts, negative
ones included, and each class, `soft2hard` returns the number of positions
`i < n` whose softbit matches neither expected value of the class (`BER`: not
0x0081 and not 0x007F; `FER`: not 0x6B20 and top 12 bits not 0x6B2). -/
theorem soft2hard_counts (h : SoftbitH) (soft hard : Nat → Int) (n : Nat) (type : Int)
    (hshort : ∀ i, i < n → -32768 ≤ soft i ∧ soft i ≤ 32767) :
    (type = h.BER → (soft2hard h soft hard n type).1 =
      (List.range n).countP (fun i => decide (soft i ≠ 0x0081 ∧ soft i ≠ 0x007F))) ∧
    (type = h.FER → (soft2hard h soft hard n type).1 =
      (List.range n).countP
        (fun i => decide (soft i ≠ 0x6B20 ∧ soft i % 65536 / 16 ≠ 0x06B2))) := by
  constructor
  · intro ht
    rw [soft2hard_count_none h soft hard n type hard_of_ber (Or.inl ⟨ht, rfl⟩)]
    apply List.countP_congr
    intro x _
    rw [Option.isNone_iff_eq_none, hard_of_ber_none, decide_eq_true_eq]
  · intro ht
    rw [soft2hard_count_none h soft hard n type hard_of_fer (Or.inr ⟨ht, rfl⟩)]
    apply List.countP_congr
    intro x hx
    have hr := hshort x (List.mem_range.1 hx)
    rw [Option.isNone_iff_eq_none, hard_of_fer_none _ hr.1 hr.2, decide_eq_true_eq]

/-- Witness of C13: a buffer with exactly one foreign value, the negative
short -3 among bit-error softbits, yields 1; so does -3 among frame
softbits. -/
theorem soft2hard_counts_witness :
    (soft2hard sampleH (fun i => if i = 1 then -3 else 0x0081) (fun _ => 5) 4 0).1 = 1 ∧
    (soft2hard sampleH (fun i => if i = 1 then -3 else 0x6B21) (fun _ => 5) 4 1).1 = 1 := by
  have hb := (soft2hard_counts sampleH (fun i => if i = 1 then -3 else 0x0081) (fun _ => 5)
    4 0 (fun i _ => by by_cases h1 : i = 1 <;> simp [h1])).1 rfl
  have hf := (soft2hard_counts sampleH (fun i => if i = 1 then -3 else 0x6B21) (fun _ => 5)
    4 1 (fun i _ => by by_cases h1 : i = 1 <;> simp [h1])).2 rfl
  exact ⟨hb.trans (by decide), hf.trans (by decide)⟩

/-- C14, as stated, fails: with bit-error class and softbits `[0x0000, 0x0081]`
position 0 holds a foreign value, yet `hard[0]`, 5 before the call, is 1 after
it: the store for the valid softbit at position 1 goes to slot 0, since the
output pointer was not advanced for the foreign value. -/
theorem soft2hard_foreign_slot_counterexample :
    (fun i => if i = 0 then 0x0000 else 0x0081 : Nat → Int) 0 ≠ 0x0081 ∧
    (fun i => if i = 0 then 0x0000 else 0x0081 : Nat → Int) 0 ≠ 0x007F ∧
    (soft2hard sampleH (fun i => if i = 0 then 0x0000 else 0x0081) (fun _ => 5) 2
      sampleH.BER).2 0 = 1 ∧
    (fun _ => 5 : Nat → Int) 0 = 5 ∧
    (soft2hard sampleH (fun i => if i = 0 then 0x0000 else 0x0081) (fun _ => 5) 2
      sampleH.BER).1 = 1 := by
  refine ⟨by decide, by decide, by decide, by decide, by decide⟩

/-- C14, amended. For every position `i < n` whose softbit, a `short`, matches
neither expected value of the class, the softbit causes no store: translating
the first `i + 1` softbits leaves `hard` as translating the first `i` does, and
counts one more unexpected value. After the whole call `hard[i]` equals its
value before the call whenever `i` is at or beyond `n - unexpected`, the number
of valid softbits. -/
theorem soft2hard_foreign_no_store (h : SoftbitH) (soft hard : Nat → Int) (n : Nat)
    (type : Int) (i : Nat) (_hi : i < n)
    (hshort : -32768 ≤ soft i ∧ soft i ≤ 32767)
    (hforeign : (type = h.BER ∧ soft i ≠ 0x0081 ∧ soft i ≠ 0x007F) ∨
      (type = h.FER ∧ soft i ≠ 0x6B20 ∧ soft i % 65536 / 16 ≠ 0x06B2)) :
    (soft2hard h soft hard (i + 1) type).2 = (soft2hard h soft hard i type).2 ∧
    (soft2hard h soft hard (i + 1) type).1 = (soft2hard h soft hard i type).1 + 1 ∧
    (n - (soft2hard h soft hard n type).1 ≤ i →
      (soft2hard h soft hard n type).2 i = hard i) := by
  rcases hforeign with ⟨ht, hf⟩ | ⟨ht, hf⟩
  · have hs := soft2hard_none_step h soft hard n type hard_of_ber (Or.inl ⟨ht, rfl⟩)
    have hnone := (hard_of_ber_none (soft i)).2 hf
    exact ⟨(hs.1 i hnone).1, (hs.1 i hnone).2, hs.2 i⟩
  · have hs := soft2hard_none_step h soft hard n type hard_of_fer (Or.inr ⟨ht, rfl⟩)
    have hnone := (hard_of_fer_none (soft i) hshort.1 hshort.2).2 hf
    exact ⟨(hs.1 i hnone).1, (hs.1 i hnone).2, hs.2 i⟩

/-- Witness of C14 amended: softbits `[0x0081, 0x0000]` under `BER`; the
foreign value at position 1 is the last one and slot 1 keeps its value 5. -/
theorem soft2hard_foreign_no_store_witness :
    (soft2hard sampleH (fun i => if i = 1 then 0x0000 else 0x0081) (fun _ => 5) (1 + 1) 0).2
      = (soft2hard sampleH (fun i => if i = 1 then 0x0000 else 0x0081) (fun _ => 5) 1 0).2 ∧
    (soft2hard sampleH (fun i => if i = 1 then 0x0000 else 0x0081) (fun _ => 5) (1 + 1) 0).1
      = (soft2hard sampleH (fun i => if i = 1 then 0x0000 else 0x0081) (fun _ => 5) 1 0).1
        + 1 ∧
    (soft2hard sampleH (fun i => if i = 1 then 0x0000 else 0x0081) (fun _ => 5) 2 0).2 1
      = (fun _ => 5 : Nat → Int) 1 := by
  have hw := soft2hard_foreign_no_store sampleH (fun i => if i = 1 then 0x0000 else 0x0081)
    (fun _ => 5) 2 0 1 (by decide) (by decide) (Or.inl ⟨rfl, by decide, by decide⟩)
  exact ⟨hw.1, hw.2.1, hw.2.2 (by decide)⟩

/-- C15. `save_bit` does not report a short write: with `n = 8` and `fwrite`
reporting 0 of the 1 byte written, the function returns 8 and not -1, where
`save_g192` returns -1 for the same counts. The test is `n < i` instead of
`i < nbytes`, so for every count `w ≤ n` the function returns `n`. -/
theorem save_bit_short_write_unreported :
    (save_bit 0 (fun _ => 0x0081) 8 0).1 = 8 ∧
    nbytes_of 8 = 1 ∧
    save_g192 8 0 = -1 ∧
    ∀ (one0 : Int) (patt : Nat → Int) (n w : Nat), w ≤ n →
      (save_bit one0 patt n w).1 = (n : Int) := by
  refine ⟨by decide, by decide, by decide, fun one0 patt n w hw => ?_⟩
  by_cases hn : n = 0
  · subst hn; simp [save_bit]
  · have hlt : ¬ ((n : Int) < (w : Int)) := by omega
    simp only [save_bit, hn, if_false, hlt]

/-- C16. `save_byte` does not report a short write: with `n = 2` and `fwrite`
reporting 1 byte written, the function returns 2 and not -1; the bytes handed
to `fwrite` are the low bytes 0x81, 0x20 of the softbits 0x0081, 0x6B20. The
test is `n < i` instead of `i < n`, so for every count `w ≤ n` the function
returns `n`. -/
theorem save_byte_short_write_unreported :
    save_byte (fun i => if i = 0 then 0x0081 else 0x6B20) 2 1 = (2, [0x81, 0x20]) ∧
    save_g192 2 1 = -1 ∧
    ∀ (patt : Nat → Int) (n w : Nat), w ≤ n → (save_byte patt n w).1 = (n : Int) := by
  refine ⟨by decide, by decide, fun patt n w hw => ?_⟩
  by_cases hn : n = 0
  · subst hn; simp [save_byte]
  · have hlt : ¬ ((n : Int) < (w : Int)) := by omega
    simp only [save_byte, hn, if_false, hlt]

/-- C17. `read_byte` does not report an I/O error: with `n = 2`, when `fread`
delivers one byte and the error indicator is set, the function returns 1; when
it delivers none, 0; the result is the one of the same read without error, and
it is never -1. `read_g192` returns -1 in both cases. -/
theorem read_byte_error_unreported :
    (read_byte (fun _ => 0) 2 ⟨[0x7F], true⟩).1 = 1 ∧
    (read_byte (fun _ => 0) 2 ⟨[], true⟩).1 = 0 ∧
    (read_g192 (fun _ => 0) 2 ⟨[0x007F], true⟩).1 = -1 ∧
    (read_g192 (fun _ => 0) 2 ⟨[], true⟩).1 = -1 ∧
    ∀ (patt : Nat → Int) (n : Nat) (items : List Nat),
      read_byte patt n ⟨items, true⟩ = read_byte patt n ⟨items, false⟩ ∧
      0 ≤ (read_byte patt n ⟨items, true⟩).1 := by
  refine ⟨by decide, by decide, by decide, by decide, fun patt n items => ⟨rfl, ?_⟩⟩
  simp only [read_byte]
  split_ifs <;> simp

/-- C18. Error reporting of `read_g192` and `read_bit`: for `n ≥ 1` each
returns -1 if and only if the error indicator of the stream is set after the
read; when it is not set, `read_g192` returns the number of items read and
`read_bit` the number of bits expanded, both non-negative, also for a short or
an empty read. -/
theorem read_error_reporting (h : SoftbitH) (patt : Nat → Int) (n : Nat)
    (rdw : Fread Int) (rdb : Fread Nat) (type : Int) (hn : 1 ≤ n) :
    ((read_g192 patt n rdw).1 = -1 ↔ rdw.error = true) ∧
    (rdw.error = false →
      (read_g192 patt n rdw).1 = ((min rdw.items.length n : Nat) : Int) ∧
      0 ≤ (read_g192 patt n rdw).1) ∧
    ((read_bit h patt n rdb type).1 = -1 ↔ rdb.error = true) ∧
    (rdb.error = false →
      (read_bit h patt n rdb type).1
        = ((min n (8 * min rdb.items.length (nbytes_of n)) : Nat) : Int) ∧
      0 ≤ (read_bit h patt n rdb type).1) := by
  have hn0 : n ≠ 0 := by omega
  refine ⟨?_, ?_, ?_, ?_⟩
  · cases he : rdw.error with
    | true => simp [read_g192, he]
    | false =>
      simp only [read_g192, he, Bool.false_eq_true, if_false, iff_false]
      omega
  · intro he
    simp only [read_g192, he, Bool.false_eq_true, if_false, List.length_take]
    constructor
    · rw [Nat.min_comm]
    · omega
  · cases he : rdb.error with
    | true => simp [read_bit, hn0, he]
    | false =>
      rw [(read_bit_ok h patt n rdb type hn he).1]
      simp only [Bool.false_eq_true, iff_false]
      omega
  · intro he
    rw [(read_bit_ok h patt n rdb type hn he).1]
    exact ⟨rfl, by omega⟩

/-- Witness of C18: an empty read without error gives 0 from both functions,
and a read that delivers data and sets the error indicator gives -1. -/
theorem read_error_reporting_witness :
    (read_g192 (fun _ => 0) 4 ⟨[], false⟩).1 = ((min ([] : List Int).length 4 : Nat) : Int) ∧
    (read_bit sampleH (fun _ => 0) 4 ⟨[], false⟩ 0).1
      = ((min 4 (8 * min ([] : List Nat).length (nbytes_of 4)) : Nat) : Int) ∧
    (read_g192 (fun _ => 0) 4 ⟨[0x007F], true⟩).1 = -1 ∧
    (read_bit sampleH (fun _ => 0) 4 ⟨[0x05], true⟩ 0).1 = -1 := by
  have h1 := read_error_reporting sampleH (fun _ => 0) 4 ⟨[], false⟩ ⟨[], false⟩ 0 (by decide)
  have h2 := read_error_reporting sampleH (fun _ => 0) 4 ⟨[0x007F], true⟩ ⟨[0x05], true⟩ 0
    (by decide)
  exact ⟨(h1.2.1 rfl).1, (h1.2.2.2 rfl).1, h2.1.2 rfl, h2.2.2.1.2 rfl⟩

/-- C19. The label helpers are total lookups: `format_str` maps `g192` to
"g192", `byte` to "byte", `compact` to "bit" and every other integer to the
empty string; `type_str` maps `BER` to "BER", `FER` to "FER" and every other
integer to the empty string; equal inputs give equal labels. -/
theorem label_lookups (h : SoftbitH) :
    format_str h h.g192 = "g192" ∧ format_str h h.byte = "byte" ∧
    format_str h h.compact = "bit" ∧
    (∀ fmt, fmt ≠ h.g192 → fmt ≠ h.byte → fmt ≠ h.compact → format_str h fmt = "") ∧
    type_str h h.BER = "BER" ∧ type_str h h.FER = "FER" ∧
    (∀ type, type ≠ h.BER → type ≠ h.FER → type_str h type = "") ∧
    (∀ a b, a = b → format_str h a = format_str h b ∧ type_str h a = type_str h b) := by
  have h1 : h.g192 ≠ h.byte := fun e => h.byte_ne_g192 e.symm
  have h2 : h.compact ≠ h.byte := fun e => h.byte_ne_compact e.symm
  have h3 : h.compact ≠ h.g192 := fun e => h.g192_ne_compact e.symm
  have h4 : h.FER ≠ h.BER := fun e => h.BER_ne_FER e.symm
  refine ⟨?_, ?_, ?_, ?_, ?_, ?_, ?_, ?_⟩
  · simp only [format_str, h1, if_false, if_true]
  · simp only [format_str, if_true]
  · simp only [format_str, h2, h3, if_false, if_true]
  · intro fmt a b c
    simp only [format_str, a, b, c, if_false]
  · simp only [type_str, if_true]
  · simp only [type_str, h4, if_false, if_true]
  · intro type a b
    simp only [type_str, a, b, if_false]
  · intro a b e
    subst e
    exact ⟨rfl, rfl⟩

/-- Witness of C19: under the sample header the code 2 is `compact`, 7 is no
format code, and 1 is `FER`. -/
theorem label_lookups_witness :
    format_str sampleH 2 = "bit" ∧ format_str sampleH 7 = "" ∧ type_str sampleH 1 = "FER" ∧
    type_str sampleH 7 = "" :=
  ⟨(label_lookups sampleH).2.2.1, (label_lookups sampleH).2.2.2.1 7 (by decide) (by decide)
      (by decide),
    (label_lookups sampleH).2.2.2.2.2.1,
    (label_lookups sampleH).2.2.2.2.2.2.1 7 (by decide) (by decide)⟩

/-- C20. `save_bit` reads beyond the pattern: with `n = 10` the function reads
the elements 10 and 11, and with `n = 3` the element 3. The counter `i` that
guards the inner loop is not advanced for the first bit of a byte, so the
guard `i < n` holds for one more element per byte packed so far: whenever `n`
is not a multiple of 8 the element of index `n` is read. With `n = 8` and
`n = 16` every index read is below `n`. -/
theorem save_bit_reads_past_n :
    save_bit_reads 10 = [0, 0, 1, 2, 3, 4, 5, 6, 7, 8, 9, 10, 11] ∧
    save_bit_reads 3 = [0, 0, 1, 2, 3] ∧
    (∀ n, n % 8 ≠ 0 → n ∈ save_bit_reads n) ∧
    (∀ x, x ∈ save_bit_reads 8 → x < 8) ∧
    (∀ x, x ∈ save_bit_reads 16 → x < 16) := by
  refine ⟨by decide, by decide, save_bit_reads_n, by decide, by decide⟩

/-- C21. The output of the translator is compacted: for a buffer of `n` shorts
and each class, `soft2hard` advances its output position only on valid
softbits, so that after the call the first `n - unexpected` slots of `hard`
hold, in the order of the input, the hard bits of exactly the valid softbits
(1 for the disturbance sentinel, 0 otherwise), and every slot at an index
`≥ n - unexpected` is unchanged. -/
theorem soft2hard_output_compacted (h : SoftbitH) (soft hard : Nat → Int) (n : Nat)
    (type : Int) (hshort : ∀ i, i < n → -32768 ≤ soft i ∧ soft i ≤ 32767) :
    (type = h.BER →
      (soft2hard h soft hard n type).1 ≤ n ∧
      (List.range (n - (soft2hard h soft hard n type).1)).map (soft2hard h soft hard n type).2
        = ((List.range n).filter
            (fun i => decide (soft i = 0x0081 ∨ soft i = 0x007F))).map
          (fun i => if soft i = 0x0081 then 1 else 0) ∧
      ∀ j, n - (soft2hard h soft hard n type).1 ≤ j →
        (soft2hard h soft hard n type).2 j = hard j) ∧
    (type = h.FER →
      (soft2hard h soft hard n type).1 ≤ n ∧
      (List.range (n - (soft2hard h soft hard n type).1)).map (soft2hard h soft hard n type).2
        = ((List.range n).filter
            (fun i => decide (soft i = 0x6B20 ∨ soft i % 65536 / 16 = 0x06B2))).map
          (fun i => if soft i = 0x6B20 then 1 else 0) ∧
      ∀ j, n - (soft2hard h soft hard n type).1 ≤ j →
        (soft2hard h soft hard n type).2 j = hard j) := by
  constructor
  · intro ht
    have hc := soft2hard_compacted h soft hard n type hard_of_ber
      (fun i => decide (soft i = 0x0081 ∨ soft i = 0x007F))
      (fun i => if soft i = 0x0081 then 1 else 0) (Or.inl ⟨ht, rfl⟩)
      (fun i _ => by
        by_cases hv : soft i = 0x0081 ∨ soft i = 0x007F
        · simp only [hv, decide_True, if_true]
          exact hard_of_ber_some (soft i) hv
        · simp only [hv, decide_False, Bool.false_eq_true, if_false]
          exact (hard_of_ber_none (soft i)).2 (not_or.1 hv))
    exact ⟨hc.1, hc.2.2.1, hc.2.2.2⟩
  · intro ht
    have hc := soft2hard_compacted h soft hard n type hard_of_fer
      (fun i => decide (soft i = 0x6B20 ∨ soft i % 65536 / 16 = 0x06B2))
      (fun i => if soft i = 0x6B20 then 1 else 0) (Or.inr ⟨ht, rfl⟩)
      (fun i hi => by
        by_cases hv : soft i = 0x6B20 ∨ soft i % 65536 / 16 = 0x06B2
        · simp only [hv, decide_True, if_true]
          exact hard_of_fer_some (soft i) (hshort i hi).1 (hshort i hi).2 hv
        · simp only [hv, decide_False, Bool.false_eq_true, if_false]
          exact (hard_of_fer_none (soft i) (hshort i hi).1 (hshort i hi).2).2 (not_or.1 hv))
    exact ⟨hc.1, hc.2.2.1, hc.2.2.2⟩

/-- Witness of C21: bit-error softbits `[0x0081, -3, 0x007F, 0x0081]` with one
foreign value; the three valid ones give `[1, 0, 1]` in slots 0 to 2 and slot 3
keeps its value 5. -/
theorem soft2hard_output_compacted_witness :
    (soft2hard sampleH (fun i => if i = 1 then -3 else if i = 2 then 0x007F else 0x0081)
      (fun _ => 5) 4 0).1 = 1 ∧
    (List.range 5).map (soft2hard sampleH
      (fun i => if i = 1 then -3 else if i = 2 then 0x007F else 0x0081) (fun _ => 5) 4 0).2
      = [1, 0, 1, 5, 5] ∧
    ∀ j, 4 - (soft2hard sampleH
        (fun i => if i = 1 then -3 else if i = 2 then 0x007F else 0x0081)
        (fun _ => 5) 4 0).1 ≤ j →
      (soft2hard sampleH (fun i => if i = 1 then -3 else if i = 2 then 0x007F else 0x0081)
        (fun _ => 5) 4 0).2 j = (fun _ => 5 : Nat → Int) j :=
  ⟨by decide, by decide,
    ((soft2hard_output_compacted sampleH
      (fun i => if i = 1 then -3 else if i = 2 then 0x007F else 0x0081) (fun _ => 5) 4 0
      (fun i _ => by
        by_cases h1 : i = 1
        · simp [h1]
        · by_cases h2 : i = 2 <;> simp [h1, h2])).1 rfl).2.2⟩

/-- C22. The translator inverts the compact reader: for `n ≥ 1`, a class
`type` (BER or FER) and a read without stream error, `soft2hard` with the same
class applied to the first `k` softbits produced by `read_bit`, `k` being the
count `read_bit` returns, gives the count 0 and `hard[i]` equal to bit
`i mod 8` of byte `i div 8` for every `i < k`. -/
theorem soft2hard_inverts_read_bit (h : SoftbitH) (patt hard : Nat → Int) (n : Nat)
    (rd : Fread Nat) (type : Int) (hn : 1 ≤ n) (herr : rd.error = false)
    (hC : type = h.BER ∨ type = h.FER) :
    (soft2hard h (read_bit h patt n rd type).2 hard
      (read_bit h patt n rd type).1.toNat type).1 = 0 ∧
    ∀ i : Nat, (i : Int) < (read_bit h patt n rd type).1 →
      (soft2hard h (read_bit h patt n rd type).2 hard
        (read_bit h patt n rd type).1.toNat type).2 i =
      if (rd.items.getD (i / 8) 0).testBit (i % 8) then 1 else 0 := by
  have hok := read_bit_ok h patt n rd type hn herr
  have hk : (read_bit h patt n rd type).1.toNat
      = min n (8 * min rd.items.length (nbytes_of n)) := by
    rw [hok.1]; exact Int.toNat_ofNat _
  rw [hk]
  rcases hC with ht | ht
  · have hs := soft2hard_all_some h (read_bit h patt n rd type).2 hard
      (min n (8 * min rd.items.length (nbytes_of n))) type hard_of_ber
      (fun v => if v = 0x0081 then 1 else 0) (Or.inl ⟨ht, rfl⟩)
      (fun i hi => by
        apply hard_of_ber_some
        rw [((hok.2 i hi).1 ht)]
        by_cases hb : (rd.items.getD (i / 8) 0).testBit (i % 8) = true <;> simp [hb])
    refine ⟨hs.1, fun i hi => ?_⟩
    rw [hok.1] at hi
    have hi2 : i < min n (8 * min rd.items.length (nbytes_of n)) := by exact_mod_cast hi
    rw [hs.2 i hi2, ((hok.2 i hi2).1 ht)]
    by_cases hb : (rd.items.getD (i / 8) 0).testBit (i % 8) = true <;> simp [hb]
  · have hs := soft2hard_all_some h (read_bit h patt n rd type).2 hard
      (min n (8 * min rd.items.length (nbytes_of n))) type hard_of_fer
      (fun v => if v = 0x6B20 then 1 else 0) (Or.inr ⟨ht, rfl⟩)
      (fun i hi => by
        rw [((hok.2 i hi).2 ht)]
        by_cases hb : (rd.items.getD (i / 8) 0).testBit (i % 8) = true
        · simp only [hb, if_true]
          exact hard_of_fer_some _ (by norm_num) (by norm_num) (Or.inl rfl)
        · simp only [hb, if_false]
          exact hard_of_fer_some _ (by norm_num) (by norm_num) (Or.inr (by norm_num)))
    refine ⟨hs.1, fun i hi => ?_⟩
    rw [hok.1] at hi
    have hi2 : i < min n (8 * min rd.items.length (nbytes_of n)) := by exact_mod_cast hi
    rw [hs.2 i hi2, ((hok.2 i hi2).2 ht)]
    by_cases hb : (rd.items.getD (i / 8) 0).testBit (i % 8) = true <;> simp [hb]

/-- Witness of C22: the bytes 0x05, 0x02 read with `n = 10` as frame erasures
and translated back give the count 0 and the bits `1,0,1,0,0,0,0,0,0,1`; the
theorem is applied at position 9, bit 1 of byte 1. -/
theorem soft2hard_inverts_read_bit_witness :
    (read_bit sampleH (fun _ => 0) 10 ⟨[0x05, 0x02], false⟩ 1).1 = 10 ∧
    (soft2hard sampleH (read_bit sampleH (fun _ => 0) 10 ⟨[0x05, 0x02], false⟩ 1).2
      (fun _ => 5) (read_bit sampleH (fun _ => 0) 10 ⟨[0x05, 0x02], false⟩ 1).1.toNat 1).1
      = 0 ∧
    (soft2hard sampleH (read_bit sampleH (fun _ => 0) 10 ⟨[0x05, 0x02], false⟩ 1).2
      (fun _ => 5) (read_bit sampleH (fun _ => 0) 10 ⟨[0x05, 0x02], false⟩ 1).1.toNat 1).2 9
      = (if (([0x05, 0x02] : List Nat).getD (9 / 8) 0).testBit (9 % 8) then 1 else 0) ∧
    (List.range 10).map
      (soft2hard sampleH (read_bit sampleH (fun _ => 0) 10 ⟨[0x05, 0x02], false⟩ 1).2
        (fun _ => 5) 10 1).2 = [1, 0, 1, 0, 0, 0, 0, 0, 0, 1] := by
  have hw := soft2hard_inverts_read_bit sampleH (fun _ => 0) (fun _ => 5) 10
    ⟨[0x05, 0x02], false⟩ 1 (by decide) rfl (Or.inr rfl)
  exact ⟨by decide, hw.1, hw.2 9 (by decide), by decide⟩

/-- C23. The compact read stores only inside the pattern: for `n ≥ 1` and
`r ≤ ceil (n / 8)` bytes read without error, every store `read_bit` makes
while it expands the bytes, the untested store of the first bit of each byte
included, has an index below `n` (the stores go to the elements
`0 .. count - 1`, in order, `count` being the value returned), and every
position from `count` up to `n - 1` holds 0 after the call. The list of stores
is complete for `read_bit` itself: every element whose index is not listed
holds after the call what `memset` left there, so that every element at an
index `≥ n` has the value it had before the call. -/
theorem read_bit_stores_inside (h : SoftbitH) (patt : Nat → Int) (n : Nat)
    (rd : Fread Nat) (type : Int) (hn : 1 ≤ n) (herr : rd.error = false)
    (hr : rd.items.length ≤ nbytes_of n) :
    (∀ x, x ∈ read_bit_stores n rd → x < n) ∧
    read_bit_stores n rd = List.range (min n (8 * rd.items.length)) ∧
    (read_bit h patt n rd type).1 = ((min n (8 * rd.items.length) : Nat) : Int) ∧
    (∀ x, min n (8 * rd.items.length) ≤ x → x < n → (read_bit h patt n rd type).2 x = 0) ∧
    (∀ x, x ∉ read_bit_stores n rd →
      (read_bit h patt n rd type).2 x = if x < n then 0 else patt x) ∧
    (∀ x, n ≤ x → (read_bit h patt n rd type).2 x = patt x) := by
  have hst := read_bit_stores_eq n rd hn herr
  have hcnt := (read_bit_ok h patt n rd type hn herr).1
  rw [Nat.min_eq_left hr] at hst hcnt
  have hlt : ∀ x, x ∈ read_bit_stores n rd → x < n := by
    intro x hx
    rw [hst, List.mem_range] at hx
    omega
  refine ⟨hlt, hst, hcnt, fun x hx hxn => ?_,
    fun x hx => read_bit_frame h patt n rd type hn herr x hx, fun x hx => ?_⟩
  · exact read_bit_tail_zero h patt n rd type hn herr x
      (by rw [Nat.min_eq_left hr]; exact hx) hxn
  · have hnot : x ∉ read_bit_stores n rd := fun hin => by
      have := hlt x hin
      omega
    rw [read_bit_frame h patt n rd type hn herr x hnot]
    have hnx : ¬ x < n := by omega
    simp only [hnx, if_false]

/-- Witness of C23: a short read, one byte of the two that `n = 10` asks for:
the stores go to the elements 0 to 7, the elements 8 and 9 hold 0 and the
elements from 10 on keep their value 7; on a full read of two bytes the stores
go to the elements 0 to 9. -/
theorem read_bit_stores_inside_witness :
    read_bit_stores 10 ⟨[0xFF], false⟩ = [0, 1, 2, 3, 4, 5, 6, 7] ∧
    read_bit_stores 10 ⟨[0xFF, 0xFF], false⟩ = [0, 1, 2, 3, 4, 5, 6, 7, 8, 9] ∧
    (List.range 13).map (read_bit sampleH (fun _ => 7) 10 ⟨[0xFF], false⟩ 0).2
      = [0x81, 0x81, 0x81, 0x81, 0x81, 0x81, 0x81, 0x81, 0, 0, 7, 7, 7] ∧
    (∀ x, x ∈ read_bit_stores 10 ⟨[0xFF], false⟩ → x < 10) ∧
    (∀ x, min 10 (8 * ([0xFF] : List Nat).length) ≤ x → x < 10 →
      (read_bit sampleH (fun _ => 7) 10 ⟨[0xFF], false⟩ 0).2 x = 0) ∧
    (∀ x, 10 ≤ x →
      (read_bit sampleH (fun _ => 7) 10 ⟨[0xFF], false⟩ 0).2 x = (fun _ => 7 : Nat → Int) x) := by
  have hw := read_bit_stores_inside sampleH (fun _ => 7) 10 ⟨[0xFF], false⟩ 0 (by decide) rfl
    (by decide)
  exact ⟨by decide, by decide, by decide, hw.1, hw.2.2.2.1, hw.2.2.2.2.2⟩

end Softbit
